import Mathlib

/-! # yourshell: the read-tokenize-dispatch loop of `src/shell.c` and `src/commands.h`

A shallow embedding of the C sources and theorems about it.

Conventions of the embedding.

* A byte is a `Char`.  A buffer handed to `strtok` is the list of the bytes stored from the
  pointer on; the end of the list stands for the terminating NUL, and a NUL byte stored inside
  the list terminates the C string as well (`cstr`).
* A token (`Tok`), as every other `char *` argument of the builtins, is the content of a C
  string: the bytes before its terminating NUL.
* A `char **` array is the list of its initialised cells, `none` being the NULL pointer.
  `malloc` and `realloc` are taken to succeed.
* The counters `bufsize`, `position`, `len` and `i` are natural numbers: on a line shorter
  than `2^31` bytes they stay in the range of `int`.  The values `atoi` returns and their sum
  are 32-bit `int`s, with wrap-around (`wrap32`).
* The process state the code acts on (standard streams, working directory) and the answers of
  the operating system (`chdir`, `fork`, `execvp`, `waitpid`) are explicit in `World`.
  `getpwuid` is taken to succeed.  A child process is followed as far as the shell sees it:
  the status values `waitpid` reports, whether `waitpid` fails, and what the child leaves of
  the standard input it shares with the shell (`LaunchEnv`).
* A loop that need not end (`shell_loop`) is run for a number of passes given as argument.
-/

namespace YourShell

/-! ## Strings -/

/-- The NUL byte that terminates a C string. -/
def NUL : Char := Char.ofNat 0

/-- Content of a C string: the bytes before the terminating NUL. -/
abbrev Tok := List Char

/-- A `char **` array: its initialised cells, `none` being NULL. -/
abbrev Args := List (Option Tok)

/-- The C string stored in a buffer: the bytes before the first NUL. -/
def cstr (buf : List Char) : List Char :=
  buf.takeWhile (fun c => c != NUL)

/-- Read of `args[i]`. -/
def arg (args : Args) (i : Nat) : Option Tok :=
  args.getD i none

/-! ## `shell.c`: constants -/

/-- Macro `SHELL_RL_BUFSIZE`. -/
def SHELL_RL_BUFSIZE : Nat := 1024

/-- Macro `SHELL_TOK_BUFSIZE`. -/
def SHELL_TOK_BUFSIZE : Nat := 64

/-- Macro `SHELL_TOK_DELIM`, the string `" \t\r\n\a"`. -/
def SHELL_TOK_DELIM : List Char := [' ', '\t', '\r', '\n', Char.ofNat 7]

/-! ## libc: `strtok` -/

/-- Bytes over which `strcspn(s, delim)` advances: neither the terminator nor in `delim`. -/
def inToken (delim : List Char) (c : Char) : Bool :=
  c != NUL && !(delim.contains c)

/-- Bytes over which `strspn(s, delim)` advances: those of `delim`. -/
def inDelim (delim : List Char) (c : Char) : Bool :=
  c != NUL && delim.contains c

/-- Model of `*s == 0` for a pointer into a buffer. -/
def atEnd (s : List Char) : Bool :=
  match s with
  | [] => true
  | c :: _ => c == NUL

/-- One call of `strtok`, the saved pointer being explicit: `strtok save delim` is the token
returned (`none` for NULL) and the new saved pointer.  The first call `strtok(line, delim)` is
`strtok line delim`; a call `strtok(NULL, delim)` continues from the saved pointer.
The token found is cut by writing NUL over the delimiter that follows it, so that its
content is the run of bytes before that delimiter. -/
def strtok (save : List Char) (delim : List Char) : Option Tok × List Char :=
  let s := save.dropWhile (inDelim delim)
  if atEnd s then (none, s)
  else
    let token := s.takeWhile (inToken delim)
    let e := s.dropWhile (inToken delim)
    if atEnd e then (some token, e) else (some token, e.tail)

/-! ## `shell.c`: `shell_split_line` -/

/-- The ways a run of the tokenizer model can fail to return an array. -/
inductive Fault
  | out_of_bounds
  | out_of_fuel
  deriving DecidableEq, Repr

/-- Assignment `tokens[position] = v` into an array of `bufsize` cells: an index outside the
allocation is a fault; every write of `shell_split_line` is at the first
uninitialised cell, so the initialised part grows by one. -/
def store (tokens : Args) (bufsize position : Nat) (v : Option Tok) : Except Fault Args :=
  if position < bufsize then .ok (tokens.take position ++ [v]) else .error .out_of_bounds

/-- The `while (token != NULL)` loop of `shell_split_line` followed by the write of the
sentinel.  `fuel` bounds the number of iterations. -/
def split_loop : Nat → Option Tok → List Char → Nat → Nat → Args → Except Fault Args
  | _, none, _, bufsize, position, tokens =>
      -- tokens[position] = NULL; return tokens;
      store tokens bufsize position none
  | 0, some _, _, _, _, _ => .error .out_of_fuel
  | fuel + 1, some token, save, bufsize, position, tokens =>
      -- tokens[position] = token;
      match store tokens bufsize position (some token) with
      | .error e => .error e
      | .ok tokens =>
        -- position++;
        let position := position + 1
        -- if (position >= bufsize) bufsize += SHELL_TOK_BUFSIZE (realloc)
        let bufsize := if position ≥ bufsize then bufsize + SHELL_TOK_BUFSIZE else bufsize
        -- token = strtok(NULL, SHELL_TOK_DELIM);
        let r := strtok save SHELL_TOK_DELIM
        split_loop fuel r.1 r.2 bufsize position tokens

/-- Function `shell_split_line`.  Every iteration of the loop consumes at least one byte of
the line, so `line.length` iterations are enough. -/
def shell_split_line (line : List Char) : Except Fault Args :=
  -- int bufsize = SHELL_TOK_BUFSIZE, position = 0; tokens = malloc(...)
  let bufsize := SHELL_TOK_BUFSIZE
  let position := 0
  let tokens : Args := []
  -- token = strtok(line, SHELL_TOK_DELIM);
  let r := strtok line SHELL_TOK_DELIM
  split_loop line.length r.1 r.2 bufsize position tokens

/-! ## Process state and operating system -/

/-- Functions whose calls are recorded in the trace. -/
inductive Fn
  | shell_cd
  | shell_help
  | shell_plus
  | shell_exit
  | shell_launch
  deriving DecidableEq, Repr

/-- Status stored by `waitpid(pid, &status, WUNTRACED)`. -/
inductive WStatus
  | exited (code : Nat)
  | signaled (sig : Nat)
  | stopped (sig : Nat)
  deriving DecidableEq, Repr

/-- Macro `WIFEXITED`. -/
def WIFEXITED : WStatus → Bool
  | .exited _ => true
  | _ => false

/-- Macro `WIFSIGNALED`. -/
def WIFSIGNALED : WStatus → Bool
  | .signaled _ => true
  | _ => false

/-- What the operating system answers during one run of `shell_launch`. -/
structure LaunchEnv where
  /-- value returned by `fork()`: 0 in the child, negative on failure, else the child's pid -/
  pid : Int
  /-- whether `execvp` replaces the process image (it returns -1 otherwise) -/
  exec_ok : Bool
  /-- the status values that successive calls of `waitpid` report; when they run out
  `waitpid` has no status to report: it blocks for ever, or it fails (`wait_fails`) -/
  waits : List WStatus
  /-- text of `strerror(errno)` after a failed call -/
  errmsg : List Char
  /-- whether, once the status values of `waits` have been reported, `waitpid` fails instead
  of blocking: it returns -1 and stores nothing, as it does with `ECHILD` when the shell was
  started with `SIGCHLD` ignored -/
  wait_fails : Bool := false
  /-- what the variable `status`, which is not initialised, holds when `shell_launch` starts -/
  status0 : WStatus := .stopped 0
  /-- what the shell is going to read from its standard input after the launch, given what it
  was going to read before.  The child shares the standard input with the shell: a program
  that runs can read from it, and the child of a failed `execvp` leaves by `exit`, which,
  when the standard input is a regular file, sets the offset of the file back by the bytes
  that the buffer of `stdin` held unread at the `fork` (`reread`).  A child that does neither
  leaves the input as it is. -/
  stdin_after : List Char → List Char := fun s => s

/-- Events of a run, oldest first. -/
inductive Event
  | call (f : Fn) (args : Args)
  | chdir (path : Tok)
  | fork
  | execvp (file : Tok) (argv : Args)
  | waitpid (pid : Int)
  | system (command : List Char)
  deriving DecidableEq, Repr

/-- The state of the shell process together with the answers of its environment. -/
structure World where
  /-- bytes that the shell is going to read from its standard input, as long as no child
  moves the input they share (`LaunchEnv.stdin_after`) -/
  stdin : List Char
  /-- bytes written to the standard output -/
  stdout : List Char
  /-- bytes written to the standard error -/
  stderr : List Char
  /-- current working directory -/
  cwd : List Char
  /-- calls made so far -/
  trace : List Event
  /-- number of calls of `fork` so far -/
  nfork : Nat
  /-- answer of `chdir(path)` from a working directory: the new one, or an error text -/
  os_chdir : List Char → Tok → Except (List Char) (List Char)
  /-- answers of the system during the n-th launch -/
  os_launch : Nat → LaunchEnv
  /-- user name found by `getpwuid(getuid())`, taken to succeed -/
  pw_name : List Char
  /-- host name stored by `gethostname` -/
  hostname : List Char

/-- How a call ends. -/
inductive Outcome
  /-- the function returns this value -/
  | ret (status : Int)
  /-- the process ends in `exit(code)` -/
  | exit (code : Int)
  /-- `execvp` succeeded: the process runs another program -/
  | exec
  /-- the process never leaves the wait loop of `shell_launch`: `waitpid` blocks for ever, or
  fails for ever while the status tested keeps the loop going -/
  | hang
  /-- read outside an array -/
  | undef
  deriving DecidableEq, Repr

/-- Macro `EXIT_FAILURE`. -/
def EXIT_FAILURE : Int := 1

/-- Output of `printf` with the text already formatted. -/
def World.printf (w : World) (s : List Char) : World :=
  { w with stdout := w.stdout ++ s }

/-- Output of `fprintf(stderr, ...)` with the text already formatted. -/
def World.eprintf (w : World) (s : List Char) : World :=
  { w with stderr := w.stderr ++ s }

/-- Call `perror(s)`: writes `s`, a colon and the text of the last error to stderr. -/
def World.perror (w : World) (s : List Char) (errmsg : List Char) : World :=
  w.eprintf (s ++ ": ".toList ++ errmsg ++ "\n".toList)

/-- Records an event. -/
def World.log (w : World) (e : Event) : World :=
  { w with trace := w.trace ++ [e] }

/-! ## `commands.h` -/

/-- Array `builtin_str`. -/
def builtin_str : List Tok :=
  ["cd".toList, "help".toList, "plus".toList, "exit".toList]

/-- Function `shell_num_builtins`: `sizeof(builtin_str) / sizeof(char *)`. -/
def shell_num_builtins : Nat := builtin_str.length

/-- Function `shell_cd`. -/
def shell_cd (w : World) (args : Args) : Outcome × World :=
  let w := w.log (.call .shell_cd args)
  match arg args 1 with
  | none => (.ret 1, w.eprintf "shell: expected argument to \"cd\"\n".toList)
  | some path =>
    let w := w.log (.chdir path)
    match w.os_chdir w.cwd path with
    | .error msg => (.ret 1, w.perror "shell".toList msg)
    | .ok dir => (.ret 1, { w with cwd := dir })

/-- The `for` loop of `shell_help`, `n` names left to print from index `i`. -/
def shell_help_loop (w : World) : Nat → Nat → World
  | 0, _ => w
  | n + 1, i =>
    shell_help_loop (w.printf ("    ".toList ++ builtin_str.getD i [] ++ "\n".toList)) n (i + 1)

/-- Function `shell_help`. -/
def shell_help (w : World) (args : Args) : Outcome × World :=
  let w := w.log (.call .shell_help args)
  let w := w.printf "SHELL\n".toList
  let w := w.printf "Type program names and arguments, and hit enter.\n".toList
  let w := w.printf "The following are built in:\n".toList
  let w := shell_help_loop w shell_num_builtins 0
  let w := w.printf "Use the man command for information on other programs.\n".toList
  (.ret 1, w)

/-- libc `isdigit` in the C locale. -/
def isdigit (c : Char) : Bool := '0' ≤ c && c ≤ '9'

/-- libc `strlen` on the content of a C string. -/
def strlen (s : Tok) : Nat := s.length

/-- The `for` loop of `isnumber`: `n` is `len - i`. -/
def isnumber_loop (a : Tok) : Nat → Nat → Int
  | 0, _ => 1
  | n + 1, i => if !isdigit (a.getD i NUL) then 0 else isnumber_loop a n (i + 1)

/-- Function `isnumber`. -/
def isnumber (a : Tok) : Int :=
  let len := strlen a
  isnumber_loop a len 0

/-- Conversion of an integer to the 32-bit `int`. -/
def wrap32 (x : Int) : Int := (x + 2 ^ 31) % 2 ^ 32 - 2 ^ 31

/-- libc `isspace` in the C locale. -/
def isspace (c : Char) : Bool :=
  c == ' ' || c == '\t' || c == '\n' || c == Char.ofNat 11 || c == Char.ofNat 12 || c == '\r'

/-- Value of the longest prefix of decimal digits, `acc` being the value read so far. -/
def digits_value : List Char → Nat → Nat
  | [], acc => acc
  | c :: cs, acc => if isdigit c then digits_value cs (10 * acc + (c.toNat - '0'.toNat)) else acc

/-- Value of an optional sign followed by decimal digits. -/
def signed_value : List Char → Int
  | '-' :: r => - (digits_value r 0 : Int)
  | '+' :: r => (digits_value r 0 : Int)
  | r => (digits_value r 0 : Int)

/-- libc `strtol(s, NULL, 10)` with a 64-bit `long`: white space, an optional sign, decimal
digits; a value outside the range of `long` gives the nearest bound. -/
def strtol10 (s : List Char) : Int :=
  let v := signed_value (s.dropWhile isspace)
  max (-(2 ^ 63)) (min v (2 ^ 63 - 1))

/-- libc `atoi`: `(int) strtol(s, NULL, 10)`. -/
def atoi (s : Tok) : Int := wrap32 (strtol10 s)

/-- Conversion `%d` of `printf`. -/
def fmt_d (n : Int) : List Char :=
  if n < 0 then '-' :: Nat.toDigits 10 n.natAbs else Nat.toDigits 10 n.toNat

/-- Function `shell_plus`. -/
def shell_plus (w : World) (args : Args) : Outcome × World :=
  let w := w.log (.call .shell_plus args)
  match arg args 1 with
  | none => (.ret 1, w.eprintf "shell: expected arguments to \"plus\"\n".toList)
  | some a =>
    match arg args 2 with
    | none => (.ret 1, w.eprintf "shell: expected arguments to \"plus\"\n".toList)
    | some b =>
      if isnumber a ≠ 0 ∧ isnumber b ≠ 0 then
        (.ret 1, w.printf (fmt_d (wrap32 (atoi a + atoi b)) ++ "\n".toList))
      else
        (.ret 1, w.eprintf "shell: unacceptable arguments for \"plus\"\n".toList)

/-- Function `shell_exit`. -/
def shell_exit (w : World) (args : Args) : Outcome × World :=
  (.ret 0, w.log (.call .shell_exit args))

/-- Array `builtin_func`. -/
def builtin_func : List (World → Args → Outcome × World) :=
  [shell_cd, shell_help, shell_plus, shell_exit]

/-! ## `shell.c`: `shell_launch` and `shell_execute` -/

/-- The `do ... while (!WIFEXITED(status) && !WIFSIGNALED(status))` loop of `shell_launch`.
The argument `status` is what the variable holds before the next call of `waitpid`: at first
what the variable, not initialised, happens to hold.  A call of `waitpid` stores the next
status value reported.  Once none is left the call blocks for ever or, when `fails`, returns
-1 and stores nothing; the code does not look at the value returned, so that the loop tests
the status it had: it returns when that status reads as an exit or a kill, and goes round for
ever otherwise.  Of the calls that block or fail the trace records the first. -/
def wait_loop (w : World) (pid : Int) (fails : Bool) : WStatus → List WStatus → Outcome × World
  | status, [] =>
    let w := w.log (.waitpid pid)
    if fails then
      if !WIFEXITED status && !WIFSIGNALED status then (.hang, w) else (.ret 1, w)
    else (.hang, w)
  | _, status :: rest =>
    let w := w.log (.waitpid pid)
    if !WIFEXITED status && !WIFSIGNALED status then wait_loop w pid fails status rest
    else (.ret 1, w)

/-- Function `shell_launch`. -/
def shell_launch (w : World) (args : Args) : Outcome × World :=
  let w := w.log (.call .shell_launch args)
  let env := w.os_launch w.nfork
  -- pid = fork();
  let w := { w.log .fork with nfork := w.nfork + 1 }
  let pid := env.pid
  if pid = 0 then
    -- child process
    match arg args 0 with
    | none => (.undef, w)
    | some file =>
      let w := w.log (.execvp file args)
      if env.exec_ok then (.exec, w)
      else (.exit EXIT_FAILURE, w.perror "shell".toList env.errmsg)
  else if pid < 0 then
    (.ret 1, w.perror "shell".toList env.errmsg)
  else
    -- parent process: the child runs (`execvp`, or `perror` and `exit`) on the standard input
    -- it shares with the shell, while the shell waits
    let w := { w with stdin := env.stdin_after w.stdin }
    wait_loop w pid env.wait_fails env.status0 env.waits

/-- libc `strcmp` on the contents of two C strings; the C standard fixes the sign of the
result only. -/
def strcmp (a b : Tok) : Int :=
  if a = b then 0 else if a < b then -1 else 1

/-- The `for` loop of `shell_execute`, `n` being `shell_num_builtins() - i`. -/
def execute_loop (w : World) (args : Args) (a0 : Tok) : Nat → Nat → Outcome × World
  | 0, _ => shell_launch w args
  | n + 1, i =>
    match builtin_str[i]? with
    | none => (.undef, w)
    | some name =>
      if strcmp a0 name = 0 then
        match builtin_func[i]? with
        | none => (.undef, w)
        | some f => f w args
      else execute_loop w args a0 n (i + 1)

/-- Function `shell_execute`. -/
def shell_execute (w : World) (args : Args) : Outcome × World :=
  match arg args 0 with
  | none => (.ret 1, w)
  | some a0 => execute_loop w args a0 shell_num_builtins 0

/-! ## Reading of the specification: maximal runs -/

/-- Whether a byte is one of the delimiters of `SHELL_TOK_DELIM`. -/
def isDelim (c : Char) : Bool := SHELL_TOK_DELIM.contains c

/-- Statement of the specification, not of the code: `MaximalRuns line toks` says that `toks`
is the list, in order, of the maximal runs of non-delimiter bytes of `line`.  A line of
delimiters only has no run; otherwise the line is a block of delimiters, the first run, which
is not empty and has no delimiter, and a rest that is empty or starts with a delimiter and
holds the other runs. -/
inductive MaximalRuns : List Char → List Tok → Prop
  | none (ds : List Char) (hds : ∀ c ∈ ds, isDelim c = true) : MaximalRuns ds []
  | run (ds t rest : List Char) (toks : List Tok)
      (hds : ∀ c ∈ ds, isDelim c = true)
      (hne : t ≠ [])
      (ht : ∀ c ∈ t, isDelim c = false)
      (hrest : ∀ c ∈ rest.head?, isDelim c = true)
      (more : MaximalRuns rest toks) :
      MaximalRuns (ds ++ t ++ rest) (t :: toks)

/-- Statement of the specification as a function: the pieces between delimiters, without
the empty ones. -/
def runs_of (line : List Char) : List Tok :=
  (line.splitOnP isDelim).filter (fun t => !t.isEmpty)

/-! ## Token sequences, values and runs used in the statements -/

/-- The array that holds a token sequence: the tokens, then the NULL sentinel. -/
def argv (toks : List Tok) : Args := toks.map some ++ [none]

/-- Statement of the specification: value in base 10 of a string of decimal digits. -/
def base10_value (s : List Char) : Nat :=
  s.foldl (fun v c => 10 * v + (c.toNat - '0'.toNat)) 0

/-- Statement of the specification: decimal representation of a natural number. -/
def decimal (n : Nat) : List Char := Nat.toDigits 10 n

/-- The calls recorded between a state and the result of a run from it: function called and
argument array, oldest first. -/
def new_calls (w : World) (r : Outcome × World) : List (Fn × Args) :=
  (r.2.trace.drop w.trace.length).filterMap fun e =>
    match e with
    | .call f a => some (f, a)
    | _ => none

/-- Number of calls of `waitpid` that the loop of `shell_launch` makes when the status values
to come are the ones given: one for each status up to the first that reports an exit or a
kill, or one more than there are status values when none does: the first call that has no
status to report. -/
def wait_count : List WStatus → Nat
  | [] => 1
  | status :: rest =>
    if !WIFEXITED status && !WIFSIGNALED status then wait_count rest + 1 else 1

/-- The next launch returns in the shell process: `fork` does not answer 0, which it does
in the child only, and, when a child was created, `waitpid` comes to report that the child
exited or was killed by a signal. -/
def launch_returns (w : World) : Bool :=
  let env := w.os_launch w.nfork
  decide (env.pid ≠ 0) &&
    (decide (env.pid < 0) || env.waits.any fun st => WIFEXITED st || WIFSIGNALED st)

/-- A state for concrete runs: nothing read or written yet, working directory `/`,
`chdir` fails with the text given, every `fork` gives a child of pid 100 that leaves the
standard input as it is and exits with status 0. -/
def sample_world : World where
  stdin := []
  stdout := []
  stderr := []
  cwd := "/".toList
  trace := []
  nfork := 0
  os_chdir := fun _ _ => .error "No such file or directory".toList
  os_launch := fun _ => { pid := 100, exec_ok := true, waits := [.exited 0], errmsg := [] }
  pw_name := "user".toList
  hostname := "host".toList

/-! ## Writes of `shell_split_line` -/

/-- The loop `split_loop` run together with a record of its writes to the token array: each
assignment `tokens[position] = ...` adds the pair of the index written and of the capacity
`bufsize` of the array at that time.  Without the record it is `split_loop`. -/
def split_loop_traced :
    Nat → Option Tok → List Char → Nat → Nat → Args → List (Nat × Nat) →
      Except Fault Args × List (Nat × Nat)
  | _, none, _, bufsize, position, tokens, writes =>
      (store tokens bufsize position none, writes ++ [(position, bufsize)])
  | 0, some _, _, _, _, _, writes => (.error .out_of_fuel, writes)
  | fuel + 1, some token, save, bufsize, position, tokens, writes =>
      let writes := writes ++ [(position, bufsize)]
      match store tokens bufsize position (some token) with
      | .error e => (.error e, writes)
      | .ok tokens =>
        let position := position + 1
        let bufsize := if position ≥ bufsize then bufsize + SHELL_TOK_BUFSIZE else bufsize
        let r := strtok save SHELL_TOK_DELIM
        split_loop_traced fuel r.1 r.2 bufsize position tokens writes

/-- Function `shell_split_line` run together with the record of its writes. -/
def shell_split_line_traced (line : List Char) : Except Fault Args × List (Nat × Nat) :=
  let r := strtok line SHELL_TOK_DELIM
  split_loop_traced line.length r.1 r.2 SHELL_TOK_BUFSIZE 0 [] []

/-! ## `shell.c`: `shell_readline` and `shell_loop` -/

/-- Assignment `buffer[position] = c` into a buffer of `bufsize` bytes: an index outside the
allocation is a fault; every write of `shell_readline` is at the first byte not yet written,
so the written part grows by one. -/
def store_char (buffer : List Char) (bufsize position : Nat) (c : Char) :
    Except Fault (List Char) :=
  if position < bufsize then .ok (buffer.take position ++ [c]) else .error .out_of_bounds

/-- The `while (1)` loop of `shell_readline` over the bytes still to come on the standard
input, `getchar` answering `EOF` when there is none left.  The result is the buffer returned
(the bytes written, the terminating NUL included) and the input left unread. -/
def readline_loop : List Char → Nat → Nat → List Char → Except Fault (List Char × List Char)
  | [], bufsize, position, buffer =>
      -- c == EOF: buffer[position] = 0; return buffer;
      match store_char buffer bufsize position NUL with
      | .error e => .error e
      | .ok buffer => .ok (buffer, [])
  | c :: input, bufsize, position, buffer =>
      if c = '\n' then
        -- buffer[position] = 0; return buffer;
        match store_char buffer bufsize position NUL with
        | .error e => .error e
        | .ok buffer => .ok (buffer, input)
      else
        -- buffer[position] = c;
        match store_char buffer bufsize position c with
        | .error e => .error e
        | .ok buffer =>
          -- position++;
          let position := position + 1
          -- if (position >= bufsize) bufsize += SHELL_RL_BUFSIZE (realloc)
          let bufsize := if position ≥ bufsize then bufsize + SHELL_RL_BUFSIZE else bufsize
          readline_loop input bufsize position buffer

/-- Function `shell_readline`: the buffer returned and the state after the read. -/
def shell_readline (w : World) : Except Fault (List Char × World) :=
  -- int bufsize = SHELL_RL_BUFSIZE; int position = 0; buffer = malloc(...)
  match readline_loop w.stdin SHELL_RL_BUFSIZE 0 [] with
  | .error e => .error e
  | .ok (buffer, input) => .ok (buffer, { w with stdin := input })

/-- Text of the prompt, `printf("\033[0;32m%s@%s\033[0;37m:~$ ", p->pw_name, hostname)`. -/
def prompt (w : World) : List Char :=
  [Char.ofNat 27] ++ "[0;32m".toList ++ w.pw_name ++ "@".toList ++ w.hostname
    ++ [Char.ofNat 27] ++ "[0;37m:~$ ".toList

/-- One pass through the body of the `do ... while (status)` loop of `shell_loop`: prompt,
`shell_readline`, `shell_split_line`, `shell_execute` (then the two calls of `free`).  The
result is the way `shell_execute` ends, `status` when it returns, and the state. -/
def shell_loop_body (w : World) : Except Fault (Outcome × World) :=
  let w := w.printf (prompt w)
  -- line = shell_readline();
  match shell_readline w with
  | .error e => .error e
  | .ok (line, w) =>
    -- args = shell_split_line(line);
    match shell_split_line line with
    | .error e => .error e
    | .ok args =>
      -- status = shell_execute(args);
      .ok (shell_execute w args)

/-- States of the loop driver. -/
inductive LoopState
  | RUNNING
  | STOPPED
  deriving DecidableEq, Repr

/-- Where a run of the loop stands. -/
inductive LoopResult
  /-- the loop is in this state, the process in this one -/
  | loop (state : LoopState) (w : World)
  /-- a call made in the body did not return: the run ended this way -/
  | ended (o : Outcome) (w : World)
  /-- a fault of the model -/
  | fault (f : Fault)

/-- The `do ... while (status)` loop of `shell_loop` for `n` passes at most: after a pass
that leaves `status` other than 0 the loop is RUNNING and goes on, after a pass that leaves
`status` 0 it is STOPPED and `shell_loop` returns. -/
def loop_passes : Nat → World → LoopResult
  | 0, w => .loop .RUNNING w
  | n + 1, w =>
    match shell_loop_body w with
    | .error f => .fault f
    | .ok (.ret status, w) => if status ≠ 0 then loop_passes n w else .loop .STOPPED w
    | .ok (o, w) => .ended o w

/-- Function `shell_loop`, for `n` passes of its loop at most.  The user and host names of
the prompt are in the state; `system("clear")` is recorded. -/
def shell_loop (n : Nat) (w : World) : LoopResult :=
  loop_passes n (w.log (.system "clear".toList))

/-! ## Lines of the input -/

/-- Statement of the specification: the lines of an input stream, the pieces between
newlines; the last one is the piece that no newline ends, empty when the stream ends with
a newline or is empty. -/
def lines_of (stream : List Char) : List (List Char) :=
  stream.splitOn '\n'

/-- Statement of the specification: first token of a line, if any. -/
def first_token (line : List Char) : Option Tok :=
  (runs_of (cstr line)).head?

/-- The function that the dispatch of a first token calls. -/
def callee (t : Tok) : Fn :=
  if t = "cd".toList then .shell_cd
  else if t = "help".toList then .shell_help
  else if t = "plus".toList then .shell_plus
  else if t = "exit".toList then .shell_exit
  else .shell_launch

/-- The call that the dispatch of a line makes: none for a line without token, else the call
of the function for the first token on the token sequence of the line. -/
def dispatch_of (line : List Char) : Option (Fn × Args) :=
  match runs_of (cstr line) with
  | [] => none
  | t :: rest => some (callee t, argv (t :: rest))

/-- Whether the answers of the system let a launch return in the shell process. -/
def env_returns (env : LaunchEnv) : Bool :=
  decide (env.pid ≠ 0) &&
    (decide (env.pid < 0) || env.waits.any fun st => WIFEXITED st || WIFSIGNALED st)

/-- A launch that returns in the shell process and whose child leaves the standard input of
the shell as it is. -/
def quiet_launch (env : LaunchEnv) : Prop :=
  env_returns env = true ∧ ∀ s, env.stdin_after s = s

/-- The state in which the body of the loop calls `shell_execute`: the prompt is printed and
the first line of the input is read. -/
def after_read (w : World) : World :=
  { w.printf (prompt w) with stdin := (w.stdin.dropWhile (fun c => c != '\n')).tail }

/-- The token sequence on which the body of the loop calls `shell_execute`: the tokens of
the first line of the input. -/
def tokens_read (w : World) : List Tok :=
  runs_of (cstr (w.stdin.takeWhile (fun c => c != '\n')))

/-! ## Runs on a standard input that is a regular file -/

/-- What the shell reads from a standard input that is a regular file after the child of a
failed `execvp` has left by `exit`, given what it was going to read.  At the `fork` the buffer
of `stdin` held `k` bytes read ahead from the file and not yet read by the shell; `exit` in
the child sets the offset of the file, which the child shares with the shell, back by these
`k` bytes.  The shell reads the `k` bytes from its buffer and then the file from that offset:
the same `k` bytes again and what follows them. -/
def reread (k : Nat) (s : List Char) : List Char :=
  s.take k ++ s

/-- The answers of the system when the shell, on a standard input that is a regular file of
which `k` bytes are read ahead, launches a program that does not exist: `fork` gives the
child 100, `execvp` fails in it, the child reports the error and leaves by
`exit(EXIT_FAILURE)`, and `waitpid` reports this exit. -/
def launch_not_found (k : Nat) : LaunchEnv :=
  { pid := 100, exec_ok := false, waits := [.exited 1],
    errmsg := "No such file or directory".toList, stdin_after := reread k }

/-- A run on a regular file of 4103 bytes: the line `zz`, 4086 empty lines, the line
`plus 1 2` and the line `exit`; there is no program `zz`.  The first `read` of `stdin` takes
4096 bytes, up to `plus 1 ` in the line `plus 1 2`, so that, the line `zz` read, 4093 bytes
are read ahead when `zz` is launched. -/
def replay_world : World :=
  { sample_world with
    stdin := "zz\n".toList ++ (List.replicate 4086 '\n' ++ "plus 1 2\nexit\n".toList)
    os_launch := fun n => if n = 0 then launch_not_found 4093 else sample_world.os_launch n }

/-- A run on a regular file of 4098 bytes: the line `zz`, 4089 empty lines and the line
`exitx`; there is no program `zz`.  The first `read` of `stdin` takes 4096 bytes, up to
`exit` in the line `exitx`, so that, the line `zz` read, 4093 bytes are read ahead when `zz`
is launched. -/
def early_exit_world : World :=
  { sample_world with
    stdin := "zz\n".toList ++ (List.replicate 4089 '\n' ++ "exitx\n".toList)
    os_launch := fun n => if n = 0 then launch_not_found 4093 else sample_world.os_launch n }

/-! ## Tokenizer -/

theorem nul_not_delim : isDelim NUL = false := by decide

theorem inDelim_eq (c : Char) : inDelim SHELL_TOK_DELIM c = isDelim c := by
  unfold inDelim isDelim
  by_cases h : c = NUL
  · subst h; decide
  · simp [h]

theorem inToken_eq (c : Char) : inToken SHELL_TOK_DELIM c = (c != NUL && !isDelim c) := rfl

theorem runs_of_nil : runs_of [] = [] := by
  simp [runs_of, List.splitOnP_nil]

theorem runs_of_delim (d : Char) (r : List Char) (hd : isDelim d = true) :
    runs_of (d :: r) = runs_of r := by
  simp [runs_of, List.splitOnP_cons, hd]

theorem runs_of_delims (ds r : List Char) (hds : ∀ c ∈ ds, isDelim c = true) :
    runs_of (ds ++ r) = runs_of r := by
  induction ds with
  | nil => rfl
  | cons d ds ih =>
    rw [List.cons_append, runs_of_delim _ _ (hds d (List.mem_cons_self _ _))]
    exact ih (fun c hc => hds c (List.mem_cons_of_mem _ hc))

theorem runs_of_token (t rest : List Char) (hne : t ≠ [])
    (ht : ∀ c ∈ t, isDelim c = false) (hrest : ∀ c ∈ rest.head?, isDelim c = true) :
    runs_of (t ++ rest) = t :: runs_of rest := by
  have ht2 : ∀ x ∈ t, ¬ isDelim x = true := fun x hx => by simp [ht x hx]
  have hte : t.isEmpty = false := by cases t <;> simp_all
  cases rest with
  | nil =>
    simp [runs_of, List.splitOnP_eq_single isDelim t ht2, List.splitOnP_nil, hte]
  | cons d r =>
    have hd : isDelim d = true := hrest d (by simp)
    rw [runs_of_delim d r hd]
    simp [runs_of, List.splitOnP_first isDelim t ht2 d hd r, hte]

theorem cstr_nil : cstr [] = [] := rfl

theorem cstr_nul (s : List Char) : cstr (NUL :: s) = [] := by
  simp [cstr]

theorem cstr_cons (c : Char) (s : List Char) (hc : c ≠ NUL) : cstr (c :: s) = c :: cstr s := by
  simp [cstr, hc]

theorem cstr_of_atEnd (s : List Char) (h : atEnd s = true) : cstr s = [] := by
  cases s with
  | nil => rfl
  | cons c s =>
    have : c = NUL := by simpa [atEnd] using h
    subst this; exact cstr_nul s

theorem cstr_no_nul (s : List Char) (h : NUL ∉ s) : cstr s = s := by
  induction s with
  | nil => rfl
  | cons c s ih =>
    have hc : c ≠ NUL := fun e => h (by simp [e])
    rw [cstr_cons c s hc, ih (fun hm => h (List.mem_cons_of_mem _ hm))]

/-- The bytes of a token found by `strtok`, and what is left after it. -/
theorem cstr_token_split (s : List Char) :
    cstr s = s.takeWhile (inToken SHELL_TOK_DELIM) ++ cstr (s.dropWhile (inToken SHELL_TOK_DELIM)) := by
  induction s with
  | nil => rfl
  | cons c s ih =>
    by_cases hc : c = NUL
    · subst hc
      simp [inToken, cstr_nul]
    · by_cases hd : isDelim c = true
      · have : inToken SHELL_TOK_DELIM c = false := by simp [inToken_eq, hd]
        simp [List.takeWhile_cons, List.dropWhile_cons, this]
      · have : inToken SHELL_TOK_DELIM c = true := by simp [inToken_eq, hd, hc]
        simp [List.takeWhile_cons, List.dropWhile_cons, this, cstr_cons c _ hc, ih]

theorem takeWhile_inToken_no_delim (s : List Char) :
    ∀ c ∈ s.takeWhile (inToken SHELL_TOK_DELIM), isDelim c = false := by
  intro c hc
  have := List.mem_takeWhile_imp hc
  simp [inToken_eq] at this
  exact this.2

theorem takeWhile_inToken_no_nul (s : List Char) :
    NUL ∉ s.takeWhile (inToken SHELL_TOK_DELIM) := by
  intro hc
  have := List.mem_takeWhile_imp hc
  simp [inToken_eq] at this

/-- What `strtok` returns, in terms of the C string stored at the saved pointer. -/
theorem strtok_spec (s : List Char) :
    (∀ s2, strtok s SHELL_TOK_DELIM = (none, s2) → runs_of (cstr s) = []) ∧
    (∀ t s2, strtok s SHELL_TOK_DELIM = (some t, s2) →
      runs_of (cstr s) = t :: runs_of (cstr s2) ∧ s2.length < s.length) := by
  induction s with
  | nil =>
    refine ⟨fun _ _ => by simp [cstr_nil, runs_of_nil], fun t s2 h => ?_⟩
    simp [strtok, atEnd] at h
  | cons c s ih =>
    by_cases hc : c = NUL
    · subst hc
      have h0 : strtok (NUL :: s) SHELL_TOK_DELIM = (none, NUL :: s) := by
        simp [strtok, inDelim, atEnd]
      refine ⟨fun _ _ => by simp [cstr_nul, runs_of_nil], fun t s2 h => ?_⟩
      rw [h0] at h; simp at h
    · by_cases hd : isDelim c = true
      · have h0 : strtok (c :: s) SHELL_TOK_DELIM = strtok s SHELL_TOK_DELIM := by
          simp [strtok, List.dropWhile_cons, inDelim_eq, hd]
        rw [h0, cstr_cons c s hc, runs_of_delim c _ hd]
        refine ⟨ih.1, fun t s2 h => ?_⟩
        have := ih.2 t s2 h
        exact ⟨this.1, by simp; omega⟩
      · have hd2 : isDelim c = false := by simpa using hd
        have hin : inToken SHELL_TOK_DELIM c = true := by simp [inToken_eq, hd2, hc]
        have hs1 : (c :: s).dropWhile (inDelim SHELL_TOK_DELIM) = c :: s := by
          simp [List.dropWhile_cons, inDelim_eq, hd2]
        have hne : atEnd (c :: s) = false := by simp [atEnd, hc]
        constructor
        · intro s2 h
          simp [strtok, hs1, hne] at h
          split at h <;> simp at h
        · intro t s2 h
          have htok : t = (c :: s).takeWhile (inToken SHELL_TOK_DELIM) := by
            simp only [strtok, hs1, hne] at h
            by_cases he : atEnd ((c :: s).dropWhile (inToken SHELL_TOK_DELIM)) = true
            · rw [if_pos he] at h
              exact ((Option.some.inj (Prod.mk.inj h).1)).symm
            · rw [if_neg he] at h
              exact ((Option.some.inj (Prod.mk.inj h).1)).symm
          have htne : t ≠ [] := by
            rw [htok, List.takeWhile_cons, hin]; simp
          have hsplit := cstr_token_split (c :: s)
          rw [← htok] at hsplit
          have hlen : t.length + ((c :: s).dropWhile (inToken SHELL_TOK_DELIM)).length
              = (c :: s).length := by
            rw [htok, ← List.length_append, List.takeWhile_append_dropWhile]
          have htl : 0 < t.length := List.length_pos.mpr htne
          by_cases he : atEnd ((c :: s).dropWhile (inToken SHELL_TOK_DELIM)) = true
          · have hs2 : s2 = (c :: s).dropWhile (inToken SHELL_TOK_DELIM) := by
              simp only [strtok, hs1, hne, he] at h
              simp at h; exact h.2.symm
            have hce := cstr_of_atEnd _ he
            rw [← hs2] at hce hlen
            rw [hsplit, ← hs2, hce]
            refine ⟨?_, by omega⟩
            rw [runs_of_token t [] htne (htok ▸ takeWhile_inToken_no_delim _) (by simp)]
          · have hs2 : s2 = ((c :: s).dropWhile (inToken SHELL_TOK_DELIM)).tail := by
              simp only [strtok, hs1, hne, he] at h
              simp at h; exact h.2.symm
            generalize hE : (c :: s).dropWhile (inToken SHELL_TOK_DELIM) = e at *
            cases e with
            | nil => simp [atEnd] at he
            | cons d e =>
              have hdn : d ≠ NUL := by simpa [atEnd] using he
              have hnot : ¬ inToken SHELL_TOK_DELIM d = true := by
                have := List.head_dropWhile_not (inToken SHELL_TOK_DELIM) (c :: s)
                  (by rw [hE]; simp)
                simpa [hE] using this
              have hdd : isDelim d = true := by
                simp [inToken_eq, hdn] at hnot; exact hnot
              simp at hs2; subst hs2
              rw [hsplit, cstr_cons d _ hdn]
              refine ⟨?_, by simp at hlen ⊢; omega⟩
              rw [runs_of_token t _ htne (htok ▸ takeWhile_inToken_no_delim _)
                (by simpa using hdd), runs_of_delim d _ hdd]

/-- Tokens still to come, given the last result of `strtok`. -/
theorem split_loop_spec (fuel : Nat) :
    ∀ (token : Option Tok) (save : List Char) (bufsize position : Nat) (tokens : Args),
      position = tokens.length → position < bufsize →
      (token ≠ none → save.length < fuel) →
      split_loop fuel token save bufsize position tokens =
        .ok (tokens ++ ((match token with
                          | none => []
                          | some t => t :: runs_of (cstr save)).map some) ++ [none]) := by
  induction fuel with
  | zero =>
    intro token save bufsize position tokens hp hb hf
    cases token with
    | none => subst hp; simp [split_loop, store, hb]
    | some t => exact absurd (hf (by simp)) (by simp)
  | succ fuel ih =>
    intro token save bufsize position tokens hp hb hf
    cases token with
    | none => subst hp; simp [split_loop, store, hb]
    | some t =>
      have hlen : save.length ≤ fuel := by have := hf (by simp); omega
      have hst : store tokens bufsize position (some t) = .ok (tokens ++ [some t]) := by
        subst hp; simp [store, hb]
      simp only [split_loop, hst]
      have hspec := strtok_spec save
      rw [ih _ _ _ _ _ (by simp [hp]) (by simp only [SHELL_TOK_BUFSIZE]; split <;> omega)]
      · cases hr : strtok save SHELL_TOK_DELIM with
        | mk r1 r2 =>
          cases r1 with
          | none => simp [hspec.1 r2 hr]
          | some t2 => simp [(hspec.2 t2 r2 hr).1]
      · intro hne
        cases hr : strtok save SHELL_TOK_DELIM with
        | mk r1 r2 =>
          cases r1 with
          | none => simp [hr] at hne
          | some t2 => have := (hspec.2 t2 r2 hr).2; simp; omega

/-- The array returned by `shell_split_line`: the runs of the line, then NULL. -/
theorem shell_split_line_eq (line : List Char) :
    shell_split_line line = .ok ((runs_of (cstr line)).map some ++ [none]) := by
  show split_loop line.length (strtok line SHELL_TOK_DELIM).1 (strtok line SHELL_TOK_DELIM).2
    SHELL_TOK_BUFSIZE 0 [] = _
  have hspec := strtok_spec line
  rw [split_loop_spec line.length _ _ SHELL_TOK_BUFSIZE 0 [] rfl (by decide)]
  · cases hr : strtok line SHELL_TOK_DELIM with
    | mk r1 r2 =>
      cases r1 with
      | none => simp [hspec.1 r2 hr]
      | some t2 => simp [(hspec.2 t2 r2 hr).1]
  · intro hne
    cases hr : strtok line SHELL_TOK_DELIM with
    | mk r1 r2 =>
      cases r1 with
      | none => simp [hr] at hne
      | some t2 => exact (hspec.2 t2 r2 hr).2

theorem isDelim_iff (c : Char) : isDelim c = true ↔ c ∈ SHELL_TOK_DELIM := by
  simp [isDelim]

theorem isDelim_false_iff (c : Char) : isDelim c = false ↔ c ∉ SHELL_TOK_DELIM := by
  simp [isDelim]

theorem runs_of_all_delims (ds : List Char) (hds : ∀ c ∈ ds, isDelim c = true) :
    runs_of ds = [] := by
  have := runs_of_delims ds [] hds
  rwa [List.append_nil, runs_of_nil] at this

/-- Uniqueness of the maximal runs. -/
theorem MaximalRuns.eq_runs_of {line : List Char} {toks : List Tok}
    (h : MaximalRuns line toks) : toks = runs_of line := by
  induction h with
  | none ds hds => exact (runs_of_all_delims ds hds).symm
  | run ds t rest toks hds hne ht hrest _ ih =>
    rw [List.append_assoc, runs_of_delims ds _ hds, runs_of_token t rest hne ht hrest, ih]

/-- Existence of the maximal runs. -/
theorem maximalRuns_runs_of (n : Nat) :
    ∀ line : List Char, line.length ≤ n → MaximalRuns line (runs_of line) := by
  induction n with
  | zero =>
    intro line hl
    have : line = [] := List.length_eq_zero.mp (by omega)
    subst this
    rw [runs_of_nil]
    exact MaximalRuns.none [] (by simp)
  | succ n ih =>
    intro line hl
    have hds : ∀ c ∈ line.takeWhile isDelim, isDelim c = true :=
      fun c hc => List.mem_takeWhile_imp hc
    have hline : line = line.takeWhile isDelim ++ line.dropWhile isDelim :=
      (List.takeWhile_append_dropWhile isDelim line).symm
    generalize hs1 : line.dropWhile isDelim = s1 at hline
    cases s1 with
    | nil =>
      rw [List.append_nil] at hline
      have hall : ∀ c ∈ line, isDelim c = true := by
        intro c hc
        rw [hline] at hc
        exact hds c hc
      rw [runs_of_all_delims line hall]
      exact MaximalRuns.none line hall
    | cons c s =>
      have hc : isDelim c = false := by
        have := List.head_dropWhile_not isDelim line (by rw [hs1]; simp)
        simpa [hs1] using this
      have ht : ∀ x ∈ (c :: s).takeWhile (fun x => !isDelim x), isDelim x = false := by
        intro x hx
        have := List.mem_takeWhile_imp hx
        simpa using this
      have hne : (c :: s).takeWhile (fun x => !isDelim x) ≠ [] := by
        rw [List.takeWhile_cons]; simp [hc]
      have hsplit : c :: s = (c :: s).takeWhile (fun x => !isDelim x)
          ++ (c :: s).dropWhile (fun x => !isDelim x) :=
        (List.takeWhile_append_dropWhile _ _).symm
      have hrest : ∀ x ∈ ((c :: s).dropWhile (fun x => !isDelim x)).head?,
          isDelim x = true := by
        intro x hx
        generalize hE : (c :: s).dropWhile (fun x => !isDelim x) = e at hx
        cases e with
        | nil => simp at hx
        | cons d e =>
          have := List.head_dropWhile_not (fun x => !isDelim x) (c :: s) (by rw [hE]; simp)
          simp at hx; subst hx
          simpa [hE] using this
      have hlen : ((c :: s).dropWhile (fun x => !isDelim x)).length ≤ n := by
        have h1 := congrArg List.length hline
        have h2 := congrArg List.length hsplit
        have h3 := List.length_pos.mpr hne
        simp only [List.length_append] at h1 h2
        omega
      have hrec := ih _ hlen
      have hruns : runs_of line = (c :: s).takeWhile (fun x => !isDelim x)
          :: runs_of ((c :: s).dropWhile (fun x => !isDelim x)) := by
        conv_lhs => rw [hline, runs_of_delims _ _ hds, hsplit]
        exact runs_of_token _ _ hne ht hrest
      rw [hruns]
      have := MaximalRuns.run _ _ _ _ hds hne ht hrest hrec
      rwa [List.append_assoc, ← hsplit, ← hline] at this

theorem runs_of_nonempty_no_delim (line : List Char) :
    ∀ t ∈ runs_of line, t ≠ [] ∧ ∀ c ∈ t, c ∉ SHELL_TOK_DELIM := by
  have h := maximalRuns_runs_of line.length line (Nat.le_refl _)
  generalize runs_of line = toks at h
  induction h with
  | none ds hds => simp
  | run ds t rest toks hds hne ht hrest _ ih =>
    intro t2 ht2
    rcases List.mem_cons.mp ht2 with h | h
    · subst h
      exact ⟨hne, fun c hc => (isDelim_false_iff c).mp (ht c hc)⟩
    · exact ih t2 h

theorem runs_of_intercalate (words : List (List Char))
    (hw : ∀ w ∈ words, w ≠ [] ∧ ∀ c ∈ w, c ∉ SHELL_TOK_DELIM) :
    runs_of ([' '].intercalate words) = words := by
  induction words with
  | nil => simp [List.intercalate, runs_of_nil]
  | cons w ws ih =>
    have hw1 := hw w (List.mem_cons_self _ _)
    have hws : ∀ w ∈ ws, w ≠ [] ∧ ∀ c ∈ w, c ∉ SHELL_TOK_DELIM :=
      fun x hx => hw x (List.mem_cons_of_mem _ hx)
    have ht : ∀ c ∈ w, isDelim c = false := fun c hc => (isDelim_false_iff c).mpr (hw1.2 c hc)
    cases ws with
    | nil =>
      have : [' '].intercalate [w] = w ++ [] := by simp [List.intercalate]
      rw [this, runs_of_token w [] hw1.1 ht (by simp), runs_of_nil]
    | cons w2 ws =>
      have : [' '].intercalate (w :: w2 :: ws) = w ++ ' ' :: [' '].intercalate (w2 :: ws) := by
        simp [List.intercalate]
      rw [this, runs_of_token w _ hw1.1 ht (by simp; decide), runs_of_delim _ _ (by decide),
        ih hws]

theorem intercalate_no_nul (words : List (List Char)) (hw : ∀ w ∈ words, NUL ∉ w) :
    NUL ∉ [' '].intercalate words := by
  induction words with
  | nil => simp [List.intercalate]
  | cons w ws ih =>
    have hw1 := hw w (List.mem_cons_self _ _)
    have hws : ∀ w ∈ ws, NUL ∉ w := fun x hx => hw x (List.mem_cons_of_mem _ hx)
    cases ws with
    | nil => simpa [List.intercalate] using hw1
    | cons w2 ws =>
      have : [' '].intercalate (w :: w2 :: ws) = w ++ ' ' :: [' '].intercalate (w2 :: ws) := by
        simp [List.intercalate]
      rw [this]
      intro hm
      rcases List.mem_append.mp hm with h | h
      · exact hw1 h
      · rcases List.mem_cons.mp h with h | h
        · exact absurd h (by decide)
        · exact ih hws h

/-- C1. Round trip of `shell_split_line`: for every list of non-empty words without a
delimiter byte (space, tab, CR, LF, BEL) and without NUL, the line made of the words joined
by single spaces is split into exactly these words, in order and as many, followed by the
NULL sentinel. -/
theorem split_line_round_trip (words : List (List Char))
    (hw : ∀ w ∈ words, w ≠ [] ∧ ∀ c ∈ w, c ∉ SHELL_TOK_DELIM ∧ c ≠ NUL) :
    shell_split_line ([' '].intercalate words) = .ok (words.map some ++ [none]) := by
  have hnul : NUL ∉ [' '].intercalate words :=
    intercalate_no_nul words (fun w hm hc => ((hw w hm).2 NUL hc).2 rfl)
  have hruns := runs_of_intercalate words
    (fun w hm => ⟨(hw w hm).1, fun c hc => ((hw w hm).2 c hc).1⟩)
  rw [shell_split_line_eq, cstr_no_nul _ hnul, hruns]

theorem split_line_round_trip_witness :
    (∀ w ∈ ["plus".toList, "2".toList, "3".toList],
        w ≠ [] ∧ ∀ c ∈ w, c ∉ SHELL_TOK_DELIM ∧ c ≠ NUL) ∧
      shell_split_line "plus 2 3".toList
        = .ok [some "plus".toList, some "2".toList, some "3".toList, none] :=
  ⟨by decide, split_line_round_trip ["plus".toList, "2".toList, "3".toList] (by decide)⟩

/-- C2. For every input line, `shell_split_line` returns, before the NULL sentinel, exactly
the maximal runs of non-delimiter bytes of the line (the C string stored in the buffer), in
order: the tokens are maximal runs of the line, any list of maximal runs of the line is this
one, no token is empty and no token holds a delimiter, so that consecutive, leading and
trailing delimiters give no token. -/
theorem split_line_maximal_runs (line : List Char) :
    ∃ toks : List Tok,
      shell_split_line line = .ok (toks.map some ++ [none]) ∧
      MaximalRuns (cstr line) toks ∧
      (∀ toks2, MaximalRuns (cstr line) toks2 → toks2 = toks) ∧
      toks = runs_of (cstr line) ∧
      ∀ t ∈ toks, t ≠ [] ∧ ∀ c ∈ t, c ∉ SHELL_TOK_DELIM :=
  ⟨runs_of (cstr line), shell_split_line_eq line,
    maximalRuns_runs_of _ _ (Nat.le_refl _), fun _ h => h.eq_runs_of, rfl,
    runs_of_nonempty_no_delim _⟩

/-- C3. For every line that is empty or made of delimiter bytes only, `shell_split_line`
returns the array holding the NULL sentinel alone, and `shell_execute` on that array returns
1 and leaves the whole state as it was: the trace gets no call of a builtin handler and
no call of `shell_launch`. -/
theorem blank_line_is_no_op (line : List Char) (h : ∀ c ∈ line, c ∈ SHELL_TOK_DELIM) :
    shell_split_line line = .ok [none] ∧
      ∀ w : World, shell_execute w [none] = (.ret 1, w) ∧
        new_calls w (shell_execute w [none]) = [] := by
  have hd : ∀ c ∈ line, isDelim c = true := fun c hc => (isDelim_iff c).mpr (h c hc)
  have hnul : NUL ∉ line := fun hm => absurd (h NUL hm) (by decide)
  refine ⟨?_, fun w => ⟨rfl, by simp [new_calls, shell_execute, arg]⟩⟩
  rw [shell_split_line_eq, cstr_no_nul _ hnul, runs_of_all_delims line hd]
  rfl

theorem blank_line_is_no_op_witness :
    (∀ c ∈ " \t ".toList, c ∈ SHELL_TOK_DELIM) ∧
      shell_split_line " \t ".toList = .ok [none] :=
  ⟨by decide, (blank_line_is_no_op " \t ".toList (by decide)).1⟩

/-! ## `isnumber` -/

theorem isdigit_iff (c : Char) : isdigit c = true ↔ ('0' ≤ c ∧ c ≤ '9') := by
  simp [isdigit]

theorem isnumber_loop_eq (suf : List Char) :
    ∀ pre : List Char,
      isnumber_loop (pre ++ suf) suf.length pre.length = if suf.all isdigit then 1 else 0 := by
  induction suf with
  | nil => intro pre; simp [isnumber_loop]
  | cons c suf ih =>
    intro pre
    have hget : (pre ++ c :: suf).getD pre.length NUL = c := by
      rw [List.getD_eq_getElem?_getD, List.getElem?_append_right (Nat.le_refl _)]
      simp
    have := ih (pre ++ [c])
    simp only [List.append_assoc, List.singleton_append, List.length_append,
      List.length_singleton] at this
    simp only [isnumber_loop, List.length_cons, hget, this, List.all_cons]
    by_cases hd : isdigit c = true
    · simp [hd]
    · simp [hd]

theorem isnumber_eq (s : Tok) : isnumber s = if s.all isdigit then 1 else 0 := by
  have := isnumber_loop_eq s []
  simpa [isnumber, strlen] using this

/-- C4. `isnumber` returns 0 for every string that holds a byte that is not a decimal
digit `0` to `9`, and returns 1 for every non-empty string made of decimal digits only. -/
theorem isnumber_digits_only (s : Tok) :
    ((∃ c ∈ s, ¬ ('0' ≤ c ∧ c ≤ '9')) → isnumber s = 0) ∧
      (s ≠ [] → (∀ c ∈ s, '0' ≤ c ∧ c ≤ '9') → isnumber s = 1) := by
  rw [isnumber_eq]
  constructor
  · rintro ⟨c, hc, hnd⟩
    have : s.all isdigit = false := by
      rw [List.all_eq_false]
      exact ⟨c, hc, by rwa [isdigit_iff]⟩
    simp [this]
  · intro _ hall
    have : s.all isdigit = true := by
      rw [List.all_eq_true]
      exact fun c hc => (isdigit_iff c).mpr (hall c hc)
    simp [this]

theorem isnumber_digits_only_witness :
    isnumber "-5".toList = 0 ∧ isnumber "3.0".toList = 0 ∧ isnumber "12a".toList = 0 ∧
      isnumber "0".toList = 1 ∧ isnumber "007".toList = 1 ∧ isnumber "42".toList = 1 :=
  ⟨(isnumber_digits_only "-5".toList).1 ⟨'-', by decide, by decide⟩,
   (isnumber_digits_only "3.0".toList).1 ⟨'.', by decide, by decide⟩,
   (isnumber_digits_only "12a".toList).1 ⟨'a', by decide, by decide⟩,
   (isnumber_digits_only "0".toList).2 (by decide) (by decide),
   (isnumber_digits_only "007".toList).2 (by decide) (by decide),
   (isnumber_digits_only "42".toList).2 (by decide) (by decide)⟩

/-- C5. On the empty string the loop of `isnumber` runs over no byte and the function
returns 1: the code accepts the empty string, where the claim has it return 0. -/
theorem isnumber_empty_string : isnumber "".toList = 1 := by
  decide

/-! ## `shell_plus` -/

theorem isspace_not_digit (c : Char) (h : isdigit c = true) : isspace c = false := by
  by_contra hs
  have hs : isspace c = true := by simpa using hs
  simp only [isspace, Bool.or_eq_true, beq_iff_eq] at hs
  rcases hs with ((((rfl | rfl) | rfl) | rfl) | rfl) | rfl <;> exact absurd h (by decide)

theorem digits_value_eq (s : List Char) :
    ∀ acc : Nat, (∀ c ∈ s, isdigit c = true) →
      digits_value s acc = s.foldl (fun v c => 10 * v + (c.toNat - '0'.toNat)) acc := by
  induction s with
  | nil => intro acc _; rfl
  | cons c s ih =>
    intro acc h
    have hc := h c (List.mem_cons_self _ _)
    simp only [digits_value, hc, if_true, List.foldl_cons]
    exact ih _ (fun x hx => h x (List.mem_cons_of_mem _ hx))

theorem strtol10_digits (s : List Char) (h : ∀ c ∈ s, isdigit c = true)
    (hr : base10_value s < 2 ^ 63) : strtol10 s = (base10_value s : Int) := by
  have hdrop : s.dropWhile isspace = s := by
    cases s with
    | nil => rfl
    | cons c s =>
      rw [List.dropWhile_cons, isspace_not_digit c (h c (List.mem_cons_self _ _))]
      simp
  have hval : digits_value s 0 = base10_value s := digits_value_eq s 0 h
  have hv : signed_value s = (base10_value s : Int) := by
    unfold signed_value
    split
    · exact absurd (h '-' (List.mem_cons_self _ _)) (by decide)
    · exact absurd (h '+' (List.mem_cons_self _ _)) (by decide)
    · rw [hval]
  simp only [strtol10, hdrop, hv]
  have h63 : ((2 : Int) ^ 63) = 9223372036854775808 := by norm_num
  have : (base10_value s : Int) < 9223372036854775808 := by
    have : ((base10_value s : Nat) : Int) < ((2 ^ 63 : Nat) : Int) := Int.ofNat_lt.mpr hr
    simpa using this
  rw [h63]
  omega

theorem wrap32_id (x : Int) (h0 : 0 ≤ x) (h1 : x < 2 ^ 31) : wrap32 x = x := by
  have h31 : ((2 : Int) ^ 31) = 2147483648 := by norm_num
  have h32 : ((2 : Int) ^ 32) = 4294967296 := by norm_num
  rw [h31] at h1
  simp only [wrap32, h31, h32]
  omega

theorem atoi_digits (s : List Char) (h : ∀ c ∈ s, isdigit c = true)
    (hr : base10_value s < 2 ^ 31) : atoi s = (base10_value s : Int) := by
  have h63 : base10_value s < 2 ^ 63 := lt_of_lt_of_le hr (by norm_num)
  rw [atoi, strtol10_digits s h h63]
  apply wrap32_id _ (Int.ofNat_nonneg _)
  have : ((base10_value s : Nat) : Int) < ((2 ^ 31 : Nat) : Int) := Int.ofNat_lt.mpr hr
  simpa using this

theorem fmt_d_nat (n : Nat) : fmt_d (n : Int) = decimal n := by
  simp [fmt_d, decimal]

theorem arg_argv_one (t a : Tok) (rest : List Tok) :
    arg (argv (t :: a :: rest)) 1 = some a := rfl

theorem arg_argv_two (t a b : Tok) (rest : List Tok) :
    arg (argv (t :: a :: b :: rest)) 2 = some b := rfl

/-- C6, as amended. For every token sequence `plus a b ...` in which `a` and `b` are made of
decimal digits only and the base-10 values of `a` and `b` and their sum are below `2^31`,
`shell_plus` appends to the standard output the decimal representation of the sum of
the two values and a newline, writes nothing to the standard error and returns 1. -/
theorem plus_prints_sum (w : World) (a b : Tok) (rest : List Tok)
    (ha : ∀ c ∈ a, '0' ≤ c ∧ c ≤ '9') (hb : ∀ c ∈ b, '0' ≤ c ∧ c ≤ '9')
    (hsum : base10_value a + base10_value b < 2 ^ 31) :
    (shell_plus w (argv ("plus".toList :: a :: b :: rest))).1 = .ret 1 ∧
      (shell_plus w (argv ("plus".toList :: a :: b :: rest))).2.stdout
        = w.stdout ++ decimal (base10_value a + base10_value b) ++ ['\n'] ∧
      (shell_plus w (argv ("plus".toList :: a :: b :: rest))).2.stderr = w.stderr := by
  have hda : ∀ c ∈ a, isdigit c = true := fun c hc => (isdigit_iff c).mpr (ha c hc)
  have hdb : ∀ c ∈ b, isdigit c = true := fun c hc => (isdigit_iff c).mpr (hb c hc)
  have hna : isnumber a = 1 := by
    rw [isnumber_eq, List.all_eq_true.mpr hda]; rfl
  have hnb : isnumber b = 1 := by
    rw [isnumber_eq, List.all_eq_true.mpr hdb]; rfl
  have hva := atoi_digits a hda (by omega)
  have hvb := atoi_digits b hdb (by omega)
  have hw : wrap32 (atoi a + atoi b) = ((base10_value a + base10_value b : Nat) : Int) := by
    rw [hva, hvb, ← Int.ofNat_add]
    apply wrap32_id _ (Int.ofNat_nonneg _)
    have : ((base10_value a + base10_value b : Nat) : Int) < ((2 ^ 31 : Nat) : Int) :=
      Int.ofNat_lt.mpr hsum
    simpa using this
  simp only [shell_plus, arg_argv_one, arg_argv_two, hna, hnb, hw, fmt_d_nat]
  simp [World.printf, World.log]

theorem plus_prints_sum_witness :
    (shell_plus sample_world (argv ["plus".toList, "007".toList, "1".toList])).1 = .ret 1 ∧
      (shell_plus sample_world (argv ["plus".toList, "007".toList, "1".toList])).2.stdout
        = sample_world.stdout ++ decimal (base10_value "007".toList + base10_value "1".toList)
            ++ ['\n'] ∧
      (shell_plus sample_world (argv ["plus".toList, "007".toList, "1".toList])).2.stderr
        = sample_world.stderr :=
  plus_prints_sum sample_world "007".toList "1".toList [] (by decide) (by decide) (by decide)

set_option maxRecDepth 100000 in
/-- C6, counterexample. On `plus 2147483647 1` both arguments are made of digits only; the
sum of their values is 2147483648, and `shell_plus` prints `-2147483648`. -/
theorem plus_sum_overflows :
    (∀ c ∈ "2147483647".toList, '0' ≤ c ∧ c ≤ '9') ∧ (∀ c ∈ "1".toList, '0' ≤ c ∧ c ≤ '9') ∧
      decimal (base10_value "2147483647".toList + base10_value "1".toList)
        = "2147483648".toList ∧
      (shell_plus sample_world
          (argv ["plus".toList, "2147483647".toList, "1".toList])).2.stdout
        = "-2147483648\n".toList ∧
      (shell_plus sample_world
          (argv ["plus".toList, "2147483647".toList, "1".toList])).2.stdout
        ≠ sample_world.stdout
            ++ decimal (base10_value "2147483647".toList + base10_value "1".toList)
            ++ ['\n'] := by
  refine ⟨by decide, by decide, by decide, by decide, by decide⟩

/-- C7. For every token sequence that starts with `plus` and in which the first or the
second argument is missing, or one of the first two arguments holds a byte that is not a
decimal digit, `shell_plus` writes nothing to the standard output, appends a message (not
empty) to the standard error and returns 1. -/
theorem plus_rejects_bad_arguments (w : World) (rest : List Tok)
    (hbad : rest.length < 2 ∨ ∃ t ∈ rest.take 2, ∃ c ∈ t, ¬ ('0' ≤ c ∧ c ≤ '9')) :
    (shell_plus w (argv ("plus".toList :: rest))).1 = .ret 1 ∧
      (shell_plus w (argv ("plus".toList :: rest))).2.stdout = w.stdout ∧
      ∃ msg, msg ≠ [] ∧
        (shell_plus w (argv ("plus".toList :: rest))).2.stderr = w.stderr ++ msg := by
  cases rest with
  | nil =>
    refine ⟨rfl, rfl, _, ?_, rfl⟩
    decide
  | cons a rest =>
    cases rest with
    | nil =>
      refine ⟨rfl, rfl, _, ?_, rfl⟩
      decide
    | cons b rest =>
      have hnum : ¬ (isnumber a ≠ 0 ∧ isnumber b ≠ 0) := by
        rcases hbad with h | ⟨t, ht, c, hc, hnd⟩
        · simp only [List.length_cons] at h; omega
        · simp only [List.take_succ_cons, List.take_zero, List.mem_cons, List.mem_singleton,
            List.not_mem_nil, or_false] at ht
          rcases ht with rfl | rfl
          · have := (isnumber_digits_only t).1 ⟨c, hc, hnd⟩
            simp [this]
          · have := (isnumber_digits_only t).1 ⟨c, hc, hnd⟩
            simp [this]
      have hsp : shell_plus w (argv ("plus".toList :: a :: b :: rest))
          = (.ret 1, (w.log (.call .shell_plus (argv ("plus".toList :: a :: b :: rest)))).eprintf
              "shell: unacceptable arguments for \"plus\"\n".toList) := by
        simp only [shell_plus, arg_argv_one, arg_argv_two, if_neg hnum]
      rw [hsp]
      exact ⟨rfl, rfl, _, by decide, rfl⟩

theorem plus_rejects_bad_arguments_witness :
    (shell_plus sample_world (argv ["plus".toList, "2".toList, "x".toList])).1 = .ret 1 ∧
      (shell_plus sample_world (argv ["plus".toList, "2".toList, "x".toList])).2.stdout
        = sample_world.stdout ∧
      ∃ msg, msg ≠ [] ∧
        (shell_plus sample_world (argv ["plus".toList, "2".toList, "x".toList])).2.stderr
          = sample_world.stderr ++ msg :=
  plus_rejects_bad_arguments sample_world ["2".toList, "x".toList]
    (Or.inr ⟨"x".toList, by decide, 'x', by decide, by decide⟩)

/-! ## `shell_execute` -/

theorem strcmp_eq_zero (a b : Tok) : strcmp a b = 0 ↔ a = b := by
  unfold strcmp
  by_cases h : a = b
  · simp [h]
  · simp only [h, if_false, iff_false]
    split <;> decide

theorem arg_argv_zero (t : Tok) (rest : List Tok) : arg (argv (t :: rest)) 0 = some t := rfl

theorem shell_help_loop_trace (n : Nat) :
    ∀ (w : World) (i : Nat), (shell_help_loop w n i).trace = w.trace := by
  induction n with
  | zero => intro w i; rfl
  | succ n ih => intro w i; rw [shell_help_loop, ih]; rfl

theorem wait_loop_trace (waits : List WStatus) :
    ∀ (w : World) (pid : Int) (fails : Bool) (st0 : WStatus),
      (wait_loop w pid fails st0 waits).2.trace
        = w.trace ++ List.replicate (wait_count waits) (.waitpid pid) := by
  induction waits with
  | nil =>
    intro w pid fails st0
    simp only [wait_loop]
    split
    · split <;> rfl
    · rfl
  | cons st waits ih =>
    intro w pid fails st0
    simp only [wait_loop, wait_count]
    split
    · rw [ih]
      simp [World.log, List.replicate_succ]
    · rfl

theorem new_calls_append (w : World) (r : Outcome × World) (es : List Event)
    (h : r.2.trace = w.trace ++ es) :
    new_calls w r = es.filterMap fun e =>
      match e with
      | .call f a => some (f, a)
      | _ => none := by
  simp [new_calls, h]

theorem new_calls_shell_cd (w : World) (args : Args) :
    new_calls w (shell_cd w args) = [(.shell_cd, args)] := by
  unfold shell_cd
  cases arg args 1 with
  | none => exact new_calls_append w _ [.call .shell_cd args] (by simp [World.log, World.eprintf])
  | some path =>
    simp only []
    cases h : (w.log (.call .shell_cd args) |>.log (.chdir path)).os_chdir
        (w.log (.call .shell_cd args) |>.log (.chdir path)).cwd path with
    | error msg =>
      exact new_calls_append w _ [.call .shell_cd args, .chdir path]
        (by simp [World.log, World.eprintf, World.perror])
    | ok dir =>
      exact new_calls_append w _ [.call .shell_cd args, .chdir path] (by simp [World.log])

theorem new_calls_shell_help (w : World) (args : Args) :
    new_calls w (shell_help w args) = [(.shell_help, args)] :=
  new_calls_append w _ [.call .shell_help args]
    (by simp [shell_help, World.printf, World.log, shell_help_loop_trace])

theorem new_calls_shell_plus (w : World) (args : Args) :
    new_calls w (shell_plus w args) = [(.shell_plus, args)] := by
  apply new_calls_append w _ [.call .shell_plus args]
  unfold shell_plus
  cases arg args 1 with
  | none => rfl
  | some a =>
    cases arg args 2 with
    | none => rfl
    | some b =>
      simp only []
      split <;> rfl

theorem new_calls_shell_exit (w : World) (args : Args) :
    new_calls w (shell_exit w args) = [(.shell_exit, args)] :=
  new_calls_append w _ [.call .shell_exit args] rfl

theorem new_calls_shell_launch (w : World) (args : Args) :
    new_calls w (shell_launch w args) = [(.shell_launch, args)] := by
  by_cases h0 : (w.os_launch w.nfork).pid = 0
  · cases ha : arg args 0 with
    | none =>
      exact new_calls_append w _ [.call .shell_launch args, .fork]
        (by simp [shell_launch, h0, ha, World.log])
    | some file =>
      by_cases he : (w.os_launch w.nfork).exec_ok = true
      · exact new_calls_append w _ [.call .shell_launch args, .fork, .execvp file args]
          (by simp [shell_launch, h0, ha, he, World.log])
      · exact new_calls_append w _ [.call .shell_launch args, .fork, .execvp file args]
          (by simp [shell_launch, h0, ha, he, World.log, World.perror, World.eprintf])
  · by_cases h1 : (w.os_launch w.nfork).pid < 0
    · exact new_calls_append w _ [.call .shell_launch args, .fork]
        (by simp [shell_launch, h0, h1, World.log, World.perror, World.eprintf])
    · rw [new_calls_append w _ ([.call .shell_launch args, .fork]
          ++ List.replicate (wait_count (w.os_launch w.nfork).waits)
              (.waitpid (w.os_launch w.nfork).pid))
        (by simp [shell_launch, h0, h1, World.log, wait_loop_trace])]
      simp [List.filterMap_append, List.filterMap_replicate]

theorem execute_builtin (w : World) (t : Tok) (rest : List Tok) :
    (t = "cd".toList → shell_execute w (argv (t :: rest)) = shell_cd w (argv (t :: rest))) ∧
    (t = "help".toList → shell_execute w (argv (t :: rest)) = shell_help w (argv (t :: rest))) ∧
    (t = "plus".toList → shell_execute w (argv (t :: rest)) = shell_plus w (argv (t :: rest))) ∧
    (t = "exit".toList → shell_execute w (argv (t :: rest)) = shell_exit w (argv (t :: rest))) := by
  refine ⟨?_, ?_, ?_, ?_⟩ <;> rintro rfl <;> rfl

theorem execute_external (w : World) (t : Tok) (rest : List Tok) (h : t ∉ builtin_str) :
    shell_execute w (argv (t :: rest)) = shell_launch w (argv (t :: rest)) := by
  have h0 : ¬ strcmp t "cd".toList = 0 := fun e => h (by simp [(strcmp_eq_zero _ _).mp e, builtin_str])
  have h1 : ¬ strcmp t "help".toList = 0 := fun e => h (by simp [(strcmp_eq_zero _ _).mp e, builtin_str])
  have h2 : ¬ strcmp t "plus".toList = 0 := fun e => h (by simp [(strcmp_eq_zero _ _).mp e, builtin_str])
  have h3 : ¬ strcmp t "exit".toList = 0 := fun e => h (by simp [(strcmp_eq_zero _ _).mp e, builtin_str])
  simp only [shell_execute, arg_argv_zero, shell_num_builtins, builtin_str, List.length_cons,
    List.length_nil, execute_loop, List.getElem?_cons_zero, List.getElem?_cons_succ,
    if_neg h0, if_neg h1, if_neg h2, if_neg h3]

theorem shell_cd_ret (w : World) (args : Args) : (shell_cd w args).1 = .ret 1 := by
  unfold shell_cd
  cases arg args 1 with
  | none => rfl
  | some path => simp only []; split <;> rfl

theorem shell_help_ret (w : World) (args : Args) : (shell_help w args).1 = .ret 1 := rfl

theorem shell_plus_ret (w : World) (args : Args) : (shell_plus w args).1 = .ret 1 := by
  unfold shell_plus
  cases arg args 1 with
  | none => rfl
  | some a =>
    cases arg args 2 with
    | none => rfl
    | some b => simp only []; split <;> rfl

theorem wait_loop_ret (waits : List WStatus) :
    ∀ (w : World) (pid : Int) (fails : Bool) (st0 : WStatus),
      ((wait_loop w pid fails st0 waits).1 = .ret 1 ∨
        (wait_loop w pid fails st0 waits).1 = .hang) ∧
      ((waits.any fun st => WIFEXITED st || WIFSIGNALED st) = true →
        (wait_loop w pid fails st0 waits).1 = .ret 1) := by
  induction waits with
  | nil =>
    intro w pid fails st0
    refine ⟨?_, by simp⟩
    simp only [wait_loop]
    split
    · split
      · exact Or.inr rfl
      · exact Or.inl rfl
    · exact Or.inr rfl
  | cons st waits ih =>
    intro w pid fails st0
    simp only [wait_loop]
    by_cases h : (!WIFEXITED st && !WIFSIGNALED st) = true
    · rw [if_pos h]
      refine ⟨(ih _ _ _ _).1, fun hany => (ih _ _ _ _).2 ?_⟩
      simp only [List.any_cons, Bool.or_eq_true] at hany
      rcases hany with h2 | h2
      · simp only [Bool.and_eq_true, Bool.not_eq_true', Bool.or_eq_true] at h h2
        rcases h2 with h2 | h2
        · rw [h.1] at h2; exact absurd h2 (by decide)
        · rw [h.2] at h2; exact absurd h2 (by decide)
      · exact h2
    · rw [if_neg h]
      exact ⟨Or.inl rfl, fun _ => rfl⟩

/-- The state in which the shell process waits for the child of a launch. -/
theorem shell_launch_parent (w : World) (args : Args) (h : 0 < (w.os_launch w.nfork).pid) :
    shell_launch w args
      = wait_loop
          { w.log (.call .shell_launch args) |>.log .fork with
            nfork := w.nfork + 1
            stdin := (w.os_launch w.nfork).stdin_after w.stdin }
          (w.os_launch w.nfork).pid (w.os_launch w.nfork).wait_fails
          (w.os_launch w.nfork).status0 (w.os_launch w.nfork).waits := by
  have h0 : ¬ (w.os_launch w.nfork).pid = 0 := by omega
  have h1 : ¬ (w.os_launch w.nfork).pid < 0 := by omega
  simp [shell_launch, h0, h1, World.log]

theorem shell_launch_ret (w : World) (args : Args) :
    (∀ r, (shell_launch w args).1 = .ret r → r = 1) ∧
      (launch_returns w = true → (shell_launch w args).1 = .ret 1) := by
  by_cases h0 : (w.os_launch w.nfork).pid = 0
  · constructor
    · intro r hr
      cases ha : arg args 0 with
      | none => simp [shell_launch, h0, ha, World.log] at hr
      | some file =>
        by_cases he : (w.os_launch w.nfork).exec_ok = true
        · simp [shell_launch, h0, ha, he, World.log] at hr
        · simp [shell_launch, h0, ha, he, World.log] at hr
    · intro hl
      simp [launch_returns, h0] at hl
  · by_cases h1 : (w.os_launch w.nfork).pid < 0
    · have : (shell_launch w args).1 = .ret 1 := by
        simp [shell_launch, h0, h1, World.log]
      rw [this]
      exact ⟨fun r hr => (Outcome.ret.inj hr).symm, fun _ => rfl⟩
    · have hpid : 0 < (w.os_launch w.nfork).pid := by omega
      rw [shell_launch_parent w args hpid]
      have hw := wait_loop_ret (w.os_launch w.nfork).waits
        { w.log (.call .shell_launch args) |>.log .fork with
          nfork := w.nfork + 1
          stdin := (w.os_launch w.nfork).stdin_after w.stdin }
        (w.os_launch w.nfork).pid (w.os_launch w.nfork).wait_fails
        (w.os_launch w.nfork).status0
      constructor
      · intro r hr
        rcases hw.1 with h | h
        · rw [h] at hr; exact (Outcome.ret.inj hr).symm
        · rw [h] at hr; exact absurd hr (by simp)
      · intro hl
        apply hw.2
        simpa [launch_returns, h0, h1] using hl

/-- C8. For every token sequence whose first token is `exit`, whatever follows it,
`shell_execute` returns 0; the run records the call of `shell_exit` with the token sequence
and nothing else: no call of `shell_launch`, no call of another handler, no other change of
the state. -/
theorem exit_returns_zero (w : World) (rest : List Tok) :
    shell_execute w (argv ("exit".toList :: rest))
        = (.ret 0, w.log (.call .shell_exit (argv ("exit".toList :: rest)))) ∧
      new_calls w (shell_execute w (argv ("exit".toList :: rest)))
        = [(.shell_exit, argv ("exit".toList :: rest))] := by
  have h := (execute_builtin w "exit".toList rest).2.2.2 rfl
  rw [h]
  exact ⟨rfl, new_calls_shell_exit w _⟩

/-- C9. Dispatch is exact and case-sensitive. For every token sequence with a first token
`t`: the registry names are `cd`, `help`, `plus`, `exit`; when `t` is byte for byte the name
at index `i` of `builtin_str`, `shell_execute` is the call of the handler at index `i` of
`builtin_func` on the whole token sequence (same result, same signal), and the one call
recorded is the call of a function other than `shell_launch`; when `t` is none of the
names, `shell_execute` is the call of `shell_launch` on the same token sequence, and that
is the one call recorded.  So a handler is called exactly when `t` is a registry name, and
`shell_launch` exactly when it is not. -/
theorem dispatch_is_exact (w : World) (t : Tok) (rest : List Tok) :
    builtin_str = ["cd".toList, "help".toList, "plus".toList, "exit".toList] ∧
    (∀ i : Nat, builtin_str[i]? = some t →
      ∃ f : World → Args → Outcome × World, builtin_func[i]? = some f ∧
        shell_execute w (argv (t :: rest)) = f w (argv (t :: rest))) ∧
    (t ∈ builtin_str →
      ∃ g, g ≠ Fn.shell_launch ∧
        new_calls w (shell_execute w (argv (t :: rest))) = [(g, argv (t :: rest))]) ∧
    (t ∉ builtin_str →
      shell_execute w (argv (t :: rest)) = shell_launch w (argv (t :: rest)) ∧
        new_calls w (shell_execute w (argv (t :: rest)))
          = [(.shell_launch, argv (t :: rest))]) ∧
    ((∃ g a, g ≠ Fn.shell_launch ∧ (g, a) ∈ new_calls w (shell_execute w (argv (t :: rest))))
      ↔ t ∈ builtin_str) := by
  have hb := execute_builtin w t rest
  have hin : t ∈ builtin_str →
      ∃ g, g ≠ Fn.shell_launch ∧
        new_calls w (shell_execute w (argv (t :: rest))) = [(g, argv (t :: rest))] := by
    intro hm
    simp only [builtin_str, List.mem_cons, List.mem_singleton, List.not_mem_nil, or_false] at hm
    rcases hm with h | h | h | h
    · exact ⟨.shell_cd, by decide, by rw [hb.1 h]; exact new_calls_shell_cd w _⟩
    · exact ⟨.shell_help, by decide, by rw [hb.2.1 h]; exact new_calls_shell_help w _⟩
    · exact ⟨.shell_plus, by decide, by rw [hb.2.2.1 h]; exact new_calls_shell_plus w _⟩
    · exact ⟨.shell_exit, by decide, by rw [hb.2.2.2 h]; exact new_calls_shell_exit w _⟩
  have hout : t ∉ builtin_str →
      shell_execute w (argv (t :: rest)) = shell_launch w (argv (t :: rest)) ∧
        new_calls w (shell_execute w (argv (t :: rest)))
          = [(.shell_launch, argv (t :: rest))] := by
    intro hm
    have := execute_external w t rest hm
    exact ⟨this, by rw [this]; exact new_calls_shell_launch w _⟩
  refine ⟨rfl, ?_, hin, hout, ?_⟩
  · intro i
    match i with
    | 0 => exact fun hi => ⟨shell_cd, rfl, hb.1 (Option.some.inj hi).symm⟩
    | 1 => exact fun hi => ⟨shell_help, rfl, hb.2.1 (Option.some.inj hi).symm⟩
    | 2 => exact fun hi => ⟨shell_plus, rfl, hb.2.2.1 (Option.some.inj hi).symm⟩
    | 3 => exact fun hi => ⟨shell_exit, rfl, hb.2.2.2 (Option.some.inj hi).symm⟩
    | n + 4 => intro hi; simp [builtin_str] at hi
  · constructor
    · rintro ⟨g, a, hg, hmem⟩
      by_contra hm
      rw [(hout hm).2] at hmem
      simp only [List.mem_singleton, Prod.mk.injEq] at hmem
      exact hg hmem.1
    · intro hm
      obtain ⟨g, hg, hc⟩ := hin hm
      exact ⟨g, argv (t :: rest), hg, by rw [hc]; simp⟩

set_option maxRecDepth 100000 in
theorem dispatch_is_exact_witness :
    "CD".toList ∉ builtin_str ∧ "exit1".toList ∉ builtin_str ∧ "cd".toList ∈ builtin_str ∧
      shell_execute sample_world (argv ["CD".toList, "/tmp".toList])
        = shell_launch sample_world (argv ["CD".toList, "/tmp".toList]) ∧
      shell_execute sample_world (argv ["exit1".toList])
        = shell_launch sample_world (argv ["exit1".toList]) ∧
      (∃ g, g ≠ Fn.shell_launch ∧
        new_calls sample_world (shell_execute sample_world (argv ["cd".toList, "/tmp".toList]))
          = [(g, argv ["cd".toList, "/tmp".toList])]) :=
  ⟨by decide, by decide, by decide,
    ((dispatch_is_exact sample_world "CD".toList ["/tmp".toList]).2.2.2.1 (by decide)).1,
    ((dispatch_is_exact sample_world "exit1".toList []).2.2.2.1 (by decide)).1,
    (dispatch_is_exact sample_world "cd".toList ["/tmp".toList]).2.2.1 (by decide)⟩

/-- C10. For every token sequence, empty or not: whenever `shell_execute` returns, it
returns 0 if the first token is `exit` and 1 in every other case; and it does return, with
that value, in every state in which a launch returns in the shell process (the launch is
not needed when the sequence is empty or names a builtin).  Missing or bad arguments, a
failed `chdir`, a failed `fork` and a child that fails leave the signal at 1. -/
theorem execute_signal (w : World) (toks : List Tok) :
    (∀ r, (shell_execute w (argv toks)).1 = .ret r →
      (r = 0 ↔ toks.head? = some "exit".toList) ∧ (r = 0 ∨ r = 1)) ∧
    ((∀ t, toks.head? = some t → t ∉ builtin_str → launch_returns w = true) →
      (shell_execute w (argv toks)).1
        = if toks.head? = some "exit".toList then .ret 0 else .ret 1) := by
  cases toks with
  | nil =>
    have h : (shell_execute w (argv [])).1 = .ret 1 := rfl
    rw [h]
    refine ⟨fun r hr => ?_, fun _ => by simp⟩
    have := (Outcome.ret.inj hr).symm
    subst this
    simp
  | cons t rest =>
    have hb := execute_builtin w t rest
    by_cases hm : t ∈ builtin_str
    · simp only [builtin_str, List.mem_cons, List.mem_singleton, List.not_mem_nil,
        or_false] at hm
      have key : (shell_execute w (argv (t :: rest))).1
          = if t = "exit".toList then .ret 0 else .ret 1 := by
        rcases hm with h | h | h | h
        · rw [hb.1 h, shell_cd_ret, if_neg (by rw [h]; decide)]
        · rw [hb.2.1 h, shell_help_ret, if_neg (by rw [h]; decide)]
        · rw [hb.2.2.1 h, shell_plus_ret, if_neg (by rw [h]; decide)]
        · rw [hb.2.2.2 h, if_pos h]; rfl
      simp only [List.head?_cons, Option.some.injEq]
      rw [key]
      refine ⟨fun r hr => ?_, fun _ => rfl⟩
      by_cases he : t = "exit".toList
      · rw [if_pos he] at hr
        have := (Outcome.ret.inj hr).symm
        subst this
        exact ⟨⟨fun _ => he, fun _ => rfl⟩, Or.inl rfl⟩
      · rw [if_neg he] at hr
        have := (Outcome.ret.inj hr).symm
        subst this
        exact ⟨⟨fun h => absurd h (by decide), fun h => absurd h he⟩, Or.inr rfl⟩
    · have hne : t ≠ "exit".toList := fun e => hm (by rw [e]; decide)
      rw [execute_external w t rest hm]
      have hl := shell_launch_ret w (argv (t :: rest))
      refine ⟨fun r hr => ?_, fun h => ?_⟩
      · have := hl.1 r hr
        subst this
        exact ⟨⟨fun h => absurd h (by decide), fun h => absurd (Option.some.inj h) hne⟩,
          Or.inr rfl⟩
      · rw [hl.2 (h t rfl hm)]
        exact (if_neg (fun h => hne (Option.some.inj h))).symm

set_option maxRecDepth 100000 in
theorem execute_signal_witness :
    launch_returns sample_world = true ∧
      (shell_execute sample_world (argv ["ls".toList, "-l".toList])).1 = .ret 1 ∧
      (shell_execute sample_world (argv ["exit".toList, "now".toList])).1 = .ret 0 :=
  ⟨by decide,
    (execute_signal sample_world ["ls".toList, "-l".toList]).2 (fun _ _ _ => by decide),
    (execute_signal sample_world ["exit".toList, "now".toList]).2 (fun _ _ _ => by decide)⟩

/-! ## `shell_cd` -/

theorem arg_argv_single (t : Tok) : arg (argv [t]) 1 = none := rfl

/-- C11. `shell_cd` on the token sequence `cd` alone returns 1, appends a message (not empty)
to the standard error, records no call of `chdir` and leaves the working directory as it
was.  On every token sequence `shell_cd` returns 1; when `chdir` fails on its argument the
working directory is unchanged and the error is reported on the standard error; when `chdir`
succeeds the working directory is the one the system answers. -/
theorem cd_keeps_directory_on_failure (w : World) (toks : List Tok) :
    ((shell_cd w (argv ["cd".toList])).1 = .ret 1 ∧
      (shell_cd w (argv ["cd".toList])).2.cwd = w.cwd ∧
      (shell_cd w (argv ["cd".toList])).2.trace
        = w.trace ++ [.call .shell_cd (argv ["cd".toList])] ∧
      (shell_cd w (argv ["cd".toList])).2.stdout = w.stdout ∧
      ∃ msg, msg ≠ [] ∧ (shell_cd w (argv ["cd".toList])).2.stderr = w.stderr ++ msg) ∧
    (shell_cd w (argv toks)).1 = .ret 1 ∧
    (∀ path msg, arg (argv toks) 1 = some path → w.os_chdir w.cwd path = .error msg →
      (shell_cd w (argv toks)).2.cwd = w.cwd ∧
      (shell_cd w (argv toks)).2.stderr
        = w.stderr ++ ("shell: ".toList ++ msg ++ ['\n'])) ∧
    (∀ path dir, arg (argv toks) 1 = some path → w.os_chdir w.cwd path = .ok dir →
      (shell_cd w (argv toks)).2.cwd = dir ∧
      (shell_cd w (argv toks)).2.stderr = w.stderr) := by
  refine ⟨⟨rfl, rfl, rfl, rfl, _, ?_, rfl⟩, shell_cd_ret w _, ?_, ?_⟩
  · decide
  · intro path msg hp he
    have hc : (w.log (.call .shell_cd (argv toks)) |>.log (.chdir path)).os_chdir
        (w.log (.call .shell_cd (argv toks)) |>.log (.chdir path)).cwd path = .error msg := he
    simp only [shell_cd, hp, hc]
    simp [World.perror, World.eprintf, World.log]
  · intro path dir hp he
    have hc : (w.log (.call .shell_cd (argv toks)) |>.log (.chdir path)).os_chdir
        (w.log (.call .shell_cd (argv toks)) |>.log (.chdir path)).cwd path = .ok dir := he
    simp only [shell_cd, hp, hc]
    simp [World.log]

theorem cd_keeps_directory_on_failure_witness :
    (shell_cd sample_world (argv ["cd".toList, "/nowhere".toList])).1 = .ret 1 ∧
      (shell_cd sample_world (argv ["cd".toList, "/nowhere".toList])).2.cwd
        = sample_world.cwd ∧
      (shell_cd sample_world (argv ["cd".toList, "/nowhere".toList])).2.stderr
        = sample_world.stderr
            ++ ("shell: ".toList ++ "No such file or directory".toList ++ ['\n']) :=
  ⟨(cd_keeps_directory_on_failure sample_world ["cd".toList, "/nowhere".toList]).2.1,
    ((cd_keeps_directory_on_failure sample_world ["cd".toList, "/nowhere".toList]).2.2.1
      "/nowhere".toList "No such file or directory".toList rfl rfl).1,
    ((cd_keeps_directory_on_failure sample_world ["cd".toList, "/nowhere".toList]).2.2.1
      "/nowhere".toList "No such file or directory".toList rfl rfl).2⟩

/-! ## `shell_launch` -/

theorem shell_launch_parent_trace (w : World) (args : Args)
    (h : 0 < (w.os_launch w.nfork).pid) :
    (shell_launch w args).2.trace
      = w.trace ++ [.call .shell_launch args, .fork]
          ++ List.replicate (wait_count (w.os_launch w.nfork).waits)
              (.waitpid (w.os_launch w.nfork).pid) := by
  rw [shell_launch_parent w args h, wait_loop_trace]
  simp [World.log]

theorem shell_launch_fork_fails (w : World) (args : Args)
    (h : (w.os_launch w.nfork).pid < 0) :
    shell_launch w args
      = (.ret 1, ({ w.log (.call .shell_launch args) |>.log .fork with
            nfork := w.nfork + 1 }).perror "shell".toList (w.os_launch w.nfork).errmsg) := by
  have h0 : ¬ (w.os_launch w.nfork).pid = 0 := by omega
  simp [shell_launch, h0, h, World.log]

/-- C12. For every token sequence with a first token, `shell_launch` in the shell process
(the parent: `fork` answers a negative value or the pid of the child) returns 1 in every
case: when `fork` fails it reports the error on the standard error, records the one call of
`fork` and no call of `waitpid`; when a child was created and `waitpid` comes to report its
end, whatever the exit status or the signal (a program that is not found is a child that
exits with `EXIT_FAILURE`), it returns 1; and it never returns another value. -/
theorem launch_returns_one (w : World) (t : Tok) (rest : List Tok) :
    ((w.os_launch w.nfork).pid < 0 →
      (shell_launch w (argv (t :: rest))).1 = .ret 1 ∧
      (shell_launch w (argv (t :: rest))).2.stderr
        = w.stderr ++ ("shell: ".toList ++ (w.os_launch w.nfork).errmsg ++ ['\n']) ∧
      (shell_launch w (argv (t :: rest))).2.trace
        = w.trace ++ [.call .shell_launch (argv (t :: rest)), .fork]) ∧
    (0 < (w.os_launch w.nfork).pid →
      (∃ st ∈ (w.os_launch w.nfork).waits, WIFEXITED st = true ∨ WIFSIGNALED st = true) →
      (shell_launch w (argv (t :: rest))).1 = .ret 1) ∧
    (∀ r, (shell_launch w (argv (t :: rest))).1 = .ret r → r = 1) ∧
    ((w.os_launch w.nfork).pid = 0 → (w.os_launch w.nfork).exec_ok = false →
      (shell_launch w (argv (t :: rest))).1 = .exit EXIT_FAILURE) := by
  refine ⟨fun h => ?_, fun h hex => ?_, (shell_launch_ret w _).1, fun h he => ?_⟩
  · rw [shell_launch_fork_fails w _ h]
    refine ⟨rfl, ?_, ?_⟩
    · simp [World.perror, World.eprintf, World.log]
    · simp [World.perror, World.eprintf, World.log]
  · apply (shell_launch_ret w _).2
    have h0 : ¬ (w.os_launch w.nfork).pid = 0 := by omega
    have h1 : ¬ (w.os_launch w.nfork).pid < 0 := by omega
    obtain ⟨st, hm, hst⟩ := hex
    simp only [launch_returns, h0, h1, decide_False, Bool.false_or, ne_eq, not_false_eq_true,
      decide_True, Bool.true_and, List.any_eq_true, Bool.or_eq_true]
    exact ⟨st, hm, hst⟩
  · simp [shell_launch, h, he, arg_argv_zero, World.log]

theorem launch_returns_one_witness :
    (shell_launch { sample_world with
        os_launch := fun _ => { pid := -1, exec_ok := false, waits := [],
                                errmsg := "Resource temporarily unavailable".toList } }
      (argv ["ls".toList])).1 = .ret 1 ∧
    (shell_launch { sample_world with
        os_launch := fun _ => { pid := 100, exec_ok := false, waits := [.exited 1],
                                errmsg := "No such file or directory".toList } }
      (argv ["nonexistent-program-xyz".toList])).1 = .ret 1 :=
  ⟨((launch_returns_one { sample_world with
        os_launch := fun _ => { pid := -1, exec_ok := false, waits := [],
                                errmsg := "Resource temporarily unavailable".toList } }
      "ls".toList []).1 (by decide)).1,
    (launch_returns_one { sample_world with
        os_launch := fun _ => { pid := 100, exec_ok := false, waits := [.exited 1],
                                errmsg := "No such file or directory".toList } }
      "nonexistent-program-xyz".toList []).2.1 (by decide)
      ⟨.exited 1, by decide, by decide⟩⟩

/-- C16. A shell started with `SIGCHLD` ignored runs `ls`: `fork` gives the child 100 and
`waitpid`, which has no status to report, fails and stores nothing.  `shell_launch` does not
look at the value `waitpid` returns and tests the variable `status`, which nothing has set.
When the variable reads as a normal exit, the function returns 1 after one call of `waitpid`,
although no wait result reported a normal exit or a kill by a signal; when it reads as a
stop, the function never leaves its loop. -/
theorem launch_tests_unset_status :
    (shell_launch { sample_world with
        os_launch := fun _ => { pid := 100, exec_ok := true, waits := [], errmsg := [],
                                wait_fails := true, status0 := .exited 0 } }
      (argv ["ls".toList])).1 = .ret 1 ∧
    (shell_launch { sample_world with
        os_launch := fun _ => { pid := 100, exec_ok := true, waits := [], errmsg := [],
                                wait_fails := true, status0 := .exited 0 } }
      (argv ["ls".toList])).2.trace
      = [.call .shell_launch (argv ["ls".toList]), .fork, .waitpid 100] ∧
    (shell_launch { sample_world with
        os_launch := fun _ => { pid := 100, exec_ok := true, waits := [], errmsg := [],
                                wait_fails := true, status0 := .stopped 19 } }
      (argv ["ls".toList])).1 = .hang :=
  ⟨rfl, rfl, rfl⟩

/-! ## Builtin registry -/

theorem shell_launch_defined (w : World) (t : Tok) (rest : List Tok) :
    (shell_launch w (argv (t :: rest))).1 ≠ .undef := by
  by_cases h0 : (w.os_launch w.nfork).pid = 0
  · by_cases he : (w.os_launch w.nfork).exec_ok = true
    · simp [shell_launch, h0, he, arg_argv_zero, World.log]
    · simp [shell_launch, h0, he, arg_argv_zero, World.log]
  · by_cases h1 : (w.os_launch w.nfork).pid < 0
    · simp [shell_launch, h0, h1, World.log]
    · have h : 0 < (w.os_launch w.nfork).pid := by omega
      rw [shell_launch_parent w _ h]
      rcases (wait_loop_ret (w.os_launch w.nfork).waits _ (w.os_launch w.nfork).pid
        (w.os_launch w.nfork).wait_fails (w.os_launch w.nfork).status0).1
        with hr | hr <;> rw [hr] <;> simp

theorem shell_execute_defined (w : World) (toks : List Tok) :
    (shell_execute w (argv toks)).1 ≠ .undef := by
  cases toks with
  | nil => simp [shell_execute, argv, arg]
  | cons t rest =>
    have hb := execute_builtin w t rest
    by_cases hm : t ∈ builtin_str
    · simp only [builtin_str, List.mem_cons, List.mem_singleton, List.not_mem_nil,
        or_false] at hm
      rcases hm with h | h | h | h
      · rw [hb.1 h, shell_cd_ret]; simp
      · rw [hb.2.1 h, shell_help_ret]; simp
      · rw [hb.2.2.1 h, shell_plus_ret]; simp
      · rw [hb.2.2.2 h]; simp [shell_exit]
    · rw [execute_external w t rest hm]
      exact shell_launch_defined w t rest

/-- C19. The builtin registry is well formed: `builtin_str` and `builtin_func` both have
`shell_num_builtins` = 4 entries; the names are pairwise distinct, so a token matches the
name at one index at most; index by index the names `cd`, `help`, `plus`, `exit` go with
`shell_cd`, `shell_help`, `shell_plus`, `shell_exit`; every index below
`shell_num_builtins` is in bounds of both arrays, and no run of `shell_execute` on a token
sequence reads outside them. -/
theorem registry_well_formed :
    builtin_str.length = 4 ∧ builtin_func.length = 4 ∧ shell_num_builtins = 4 ∧
    builtin_str.Nodup ∧
    (∀ (i j : Nat) (t : Tok), builtin_str[i]? = some t → builtin_str[j]? = some t → i = j) ∧
    builtin_str.zip builtin_func
      = [("cd".toList, shell_cd), ("help".toList, shell_help),
         ("plus".toList, shell_plus), ("exit".toList, shell_exit)] ∧
    (∀ i : Nat, i < shell_num_builtins →
      (builtin_str[i]?).isSome = true ∧ (builtin_func[i]?).isSome = true) ∧
    (∀ (w : World) (toks : List Tok), (shell_execute w (argv toks)).1 ≠ .undef) := by
  have hnd : builtin_str.Nodup := by decide
  refine ⟨rfl, rfl, rfl, hnd, ?_, rfl, ?_, shell_execute_defined⟩
  · intro i j t hi hj
    have hi2 := List.getElem?_eq_some.mp hi
    have hj2 := List.getElem?_eq_some.mp hj
    obtain ⟨hil, hie⟩ := hi2
    obtain ⟨hjl, hje⟩ := hj2
    exact (List.Nodup.getElem_inj_iff hnd).mp (hie.trans hje.symm)
  · intro i hi
    have : i < 4 := hi
    interval_cases i <;> exact ⟨rfl, rfl⟩

/-! ## Decimal representation -/

theorem toDigitsCore_append (fuel : Nat) :
    ∀ (n : Nat) (ds : List Char),
      Nat.toDigitsCore 10 fuel n ds = Nat.toDigitsCore 10 fuel n [] ++ ds := by
  induction fuel with
  | zero => intro n ds; simp [Nat.toDigitsCore]
  | succ fuel ih =>
    intro n ds
    simp only [Nat.toDigitsCore]
    split
    · simp
    · rw [ih (n / 10) (Nat.digitChar (n % 10) :: ds), ih (n / 10) [Nat.digitChar (n % 10)]]
      simp

theorem digitChar_value (d : Nat) (h : d < 10) :
    (Nat.digitChar d).toNat - '0'.toNat = d ∧ isdigit (Nat.digitChar d) = true ∧
      (d ≠ 0 → Nat.digitChar d ≠ '0') := by
  interval_cases d <;> decide

theorem base10_value_snoc (s : List Char) (c : Char) :
    base10_value (s ++ [c]) = 10 * base10_value s + (c.toNat - '0'.toNat) := by
  simp [base10_value, List.foldl_append]

/-- The digits printed for `n` are its canonical decimal representation. -/
theorem toDigitsCore_spec (n : Nat) :
    ∀ fuel : Nat, n < fuel →
      base10_value (Nat.toDigitsCore 10 fuel n []) = n ∧
      (∀ c ∈ Nat.toDigitsCore 10 fuel n [], isdigit c = true) ∧
      Nat.toDigitsCore 10 fuel n [] ≠ [] ∧
      (n = 0 → Nat.toDigitsCore 10 fuel n [] = ['0']) ∧
      (n ≠ 0 → (Nat.toDigitsCore 10 fuel n []).head? ≠ some '0') := by
  induction n using Nat.strong_induction_on with
  | _ n ih =>
    intro fuel hf
    cases fuel with
    | zero => omega
    | succ fuel =>
      have hd := digitChar_value (n % 10) (Nat.mod_lt _ (by decide))
      simp only [Nat.toDigitsCore]
      by_cases hq : n / 10 = 0
      · have hn : n < 10 := by omega
        have hm : n % 10 = n := Nat.mod_eq_of_lt hn
        rw [if_pos hq]
        rw [hm] at hd ⊢
        refine ⟨?_, ?_, by simp, ?_, ?_⟩
        · simpa [base10_value] using hd.1
        · intro c hc
          rw [List.mem_singleton.mp hc]; exact hd.2.1
        · intro h0; subst h0; rfl
        · intro h0 hc
          simp only [List.head?_cons, Option.some.injEq] at hc
          exact hd.2.2 h0 hc
      · rw [if_neg hq, toDigitsCore_append]
        have hlt : n / 10 < n := by omega
        have hrec := ih (n / 10) hlt fuel (by omega)
        obtain ⟨hv, hdig, hne, _, hhead⟩ := hrec
        refine ⟨?_, ?_, by simp, ?_, ?_⟩
        · rw [base10_value_snoc, hv, hd.1]; omega
        · intro c hc
          rcases List.mem_append.mp hc with h | h
          · exact hdig c h
          · rw [List.mem_singleton.mp h]; exact hd.2.1
        · intro h0; omega
        · intro _
          cases hx : Nat.toDigitsCore 10 fuel (n / 10) [] with
          | nil => exact absurd hx hne
          | cons x xs =>
            have := hhead hq
            rw [hx] at this
            simpa using this

theorem decimal_spec (n : Nat) :
    base10_value (decimal n) = n ∧ (∀ c ∈ decimal n, '0' ≤ c ∧ c ≤ '9') ∧
      (decimal n = ['0'] ∨ (decimal n).head? ≠ some '0') := by
  have h := toDigitsCore_spec n (n + 1) (Nat.lt_succ_self n)
  refine ⟨h.1, fun c hc => (isdigit_iff c).mp (h.2.1 c hc), ?_⟩
  by_cases h0 : n = 0
  · exact Or.inl (h.2.2.2.1 h0)
  · exact Or.inr (h.2.2.2.2 h0)

theorem shell_plus_digits (w : World) (t a b : Tok) (rest : List Tok)
    (ha : ∀ c ∈ a, isdigit c = true) (hb : ∀ c ∈ b, isdigit c = true)
    (hsum : base10_value a + base10_value b < 2 ^ 31) :
    shell_plus w (argv (t :: a :: b :: rest))
      = (.ret 1, (w.log (.call .shell_plus (argv (t :: a :: b :: rest)))).printf
          (decimal (base10_value a + base10_value b) ++ ['\n'])) := by
  have hna : isnumber a = 1 := by
    rw [isnumber_eq, List.all_eq_true.mpr ha]; rfl
  have hnb : isnumber b = 1 := by
    rw [isnumber_eq, List.all_eq_true.mpr hb]; rfl
  have hva := atoi_digits a ha (by omega)
  have hvb := atoi_digits b hb (by omega)
  have hw : wrap32 (atoi a + atoi b) = ((base10_value a + base10_value b : Nat) : Int) := by
    rw [hva, hvb, ← Int.ofNat_add]
    apply wrap32_id _ (Int.ofNat_nonneg _)
    have : ((base10_value a + base10_value b : Nat) : Int) < ((2 ^ 31 : Nat) : Int) :=
      Int.ofNat_lt.mpr hsum
    simpa using this
  simp only [shell_plus, arg_argv_one, arg_argv_two, hna, hnb, hw, fmt_d_nat]
  simp

set_option linter.unusedVariables false in
/-- C17. For all strings `a` and `b` of decimal digits whose base-10 values and whose sum
fit a signed 32-bit integer, `shell_plus` on `plus a b ...` returns 1 and appends to the
standard output exactly the decimal representation of `value a + value b` and a newline;
that representation is made of decimal digits, reads back in base 10 as the sum, and has no
leading zero (it is `0` itself or does not start with `0`).  The arguments are read in base
10 whatever their leading zeros. -/
theorem plus_decimal_sum_32bit (w : World) (a b : Tok) (rest : List Tok)
    (ha : ∀ c ∈ a, '0' ≤ c ∧ c ≤ '9') (hb : ∀ c ∈ b, '0' ≤ c ∧ c ≤ '9')
    (hva : base10_value a ≤ 2 ^ 31 - 1) (hvb : base10_value b ≤ 2 ^ 31 - 1)
    (hsum : base10_value a + base10_value b ≤ 2 ^ 31 - 1) :
    (shell_plus w (argv ("plus".toList :: a :: b :: rest))).1 = .ret 1 ∧
      (shell_plus w (argv ("plus".toList :: a :: b :: rest))).2.stdout
        = w.stdout ++ decimal (base10_value a + base10_value b) ++ ['\n'] ∧
      base10_value (decimal (base10_value a + base10_value b))
        = base10_value a + base10_value b ∧
      (∀ c ∈ decimal (base10_value a + base10_value b), '0' ≤ c ∧ c ≤ '9') ∧
      (decimal (base10_value a + base10_value b) = ['0'] ∨
        (decimal (base10_value a + base10_value b)).head? ≠ some '0') := by
  have hda : ∀ c ∈ a, isdigit c = true := fun c hc => (isdigit_iff c).mpr (ha c hc)
  have hdb : ∀ c ∈ b, isdigit c = true := fun c hc => (isdigit_iff c).mpr (hb c hc)
  have hlt : base10_value a + base10_value b < 2 ^ 31 := by
    have : (2 : Nat) ^ 31 = 2147483648 := by norm_num
    omega
  have hd := decimal_spec (base10_value a + base10_value b)
  rw [shell_plus_digits w _ a b rest hda hdb hlt]
  refine ⟨rfl, ?_, hd.1, hd.2.1, hd.2.2⟩
  simp [World.printf, World.log]

set_option maxRecDepth 100000 in
theorem plus_decimal_sum_32bit_witness :
    (shell_plus sample_world (argv ["plus".toList, "007".toList, "1".toList])).2.stdout
        = "8\n".toList ∧
      (shell_plus sample_world (argv ["plus".toList, "2".toList, "3".toList])).2.stdout
        = "5\n".toList ∧
      (shell_plus sample_world
          (argv ["plus".toList, "2147483000".toList, "647".toList])).2.stdout
        = "2147483647\n".toList :=
  ⟨(plus_decimal_sum_32bit sample_world "007".toList "1".toList []
      (by decide) (by decide) (by decide) (by decide) (by decide)).2.1,
   (plus_decimal_sum_32bit sample_world "2".toList "3".toList []
      (by decide) (by decide) (by decide) (by decide) (by decide)).2.1,
   (plus_decimal_sum_32bit sample_world "2147483000".toList "647".toList []
      (by decide) (by decide) (by decide) (by decide) (by decide)).2.1⟩

/-! ## Capacity of the token array -/

theorem split_loop_traced_erase (fuel : Nat) :
    ∀ (token : Option Tok) (save : List Char) (bufsize position : Nat) (tokens : Args)
      (writes : List (Nat × Nat)),
      (split_loop_traced fuel token save bufsize position tokens writes).1
        = split_loop fuel token save bufsize position tokens := by
  induction fuel with
  | zero =>
    intro token save bufsize position tokens writes
    cases token <;> rfl
  | succ fuel ih =>
    intro token save bufsize position tokens writes
    cases token with
    | none => rfl
    | some t =>
      simp only [split_loop_traced, split_loop]
      cases store tokens bufsize position (some t) with
      | error e => rfl
      | ok tokens2 => exact ih _ _ _ _ _ _

theorem capacity_step (p : Nat) :
    (if p + 1 ≥ 64 * (p / 64 + 1) then 64 * (p / 64 + 1) + SHELL_TOK_BUFSIZE
      else 64 * (p / 64 + 1)) = 64 * ((p + 1) / 64 + 1) := by
  simp only [SHELL_TOK_BUFSIZE]
  split <;> omega

theorem split_loop_traced_writes (fuel : Nat) :
    ∀ (token : Option Tok) (save : List Char) (position : Nat) (tokens : Args)
      (writes : List (Nat × Nat)),
      position = tokens.length →
      (token ≠ none → save.length < fuel) →
      (split_loop_traced fuel token save (64 * (position / 64 + 1)) position tokens writes).2
        = writes ++ (List.range' position
            ((match token with
              | none => []
              | some t => t :: runs_of (cstr save)).length + 1)).map
            (fun j => (j, 64 * (j / 64 + 1))) := by
  induction fuel with
  | zero =>
    intro token save position tokens writes hp hf
    cases token with
    | none => simp [split_loop_traced]
    | some t => exact absurd (hf (by simp)) (by simp)
  | succ fuel ih =>
    intro token save position tokens writes hp hf
    cases token with
    | none => simp [split_loop_traced]
    | some t =>
      have hlen : save.length ≤ fuel := by have := hf (by simp); omega
      have hb : position < 64 * (position / 64 + 1) := by omega
      have hst : store tokens (64 * (position / 64 + 1)) position (some t)
          = .ok (tokens ++ [some t]) := by
        subst hp; simp [store, hb]
      have hspec := strtok_spec save
      simp only [split_loop_traced, hst, capacity_step]
      rw [ih _ _ _ _ _ (by simp [hp])]
      · cases hr : strtok save SHELL_TOK_DELIM with
        | mk r1 r2 =>
          cases r1 with
          | none =>
            simp [hspec.1 r2 hr, List.range'_succ]
          | some t2 =>
            simp [(hspec.2 t2 r2 hr).1, List.range'_succ]
      · intro hne
        cases hr : strtok save SHELL_TOK_DELIM with
        | mk r1 r2 =>
          cases r1 with
          | none => simp [hr] at hne
          | some t2 => have := (hspec.2 t2 r2 hr).2; simp; omega

theorem shell_split_line_traced_writes (line : List Char) :
    (shell_split_line_traced line).2
      = (List.range ((runs_of (cstr line)).length + 1)).map
          (fun j => (j, 64 * (j / 64 + 1))) := by
  show (split_loop_traced line.length (strtok line SHELL_TOK_DELIM).1
    (strtok line SHELL_TOK_DELIM).2 (64 * (0 / 64 + 1)) 0 [] []).2 = _
  have hspec := strtok_spec line
  rw [split_loop_traced_writes line.length _ _ 0 [] [] rfl, List.range_eq_range']
  · cases hr : strtok line SHELL_TOK_DELIM with
    | mk r1 r2 =>
      cases r1 with
      | none => simp [hspec.1 r2 hr]
      | some t2 => simp [(hspec.2 t2 r2 hr).1]
  · intro hne
    cases hr : strtok line SHELL_TOK_DELIM with
    | mk r1 r2 =>
      cases r1 with
      | none => simp [hr] at hne
      | some t2 => exact (hspec.2 t2 r2 hr).2

/-- C15. `shell_split_line` never truncates.  For every line, with `k` the number of its
tokens: the array returned holds the `k` tokens at the indices below `k` and the NULL
sentinel at index `k`; the writes to the array are, in order, at the indices `0` to `k`, the
capacity at the write at index `j` being `64 * (j / 64 + 1)` (64 at the start, 64 more each
time the number of tokens written reaches it), so that every index written is below the
capacity of the moment. -/
theorem split_line_never_truncates (line : List Char) :
    ∃ toks : List Tok,
      toks = runs_of (cstr line) ∧
      shell_split_line line = .ok (toks.map some ++ [none]) ∧
      (∀ args, shell_split_line line = .ok args →
        args.length = toks.length + 1 ∧ args[toks.length]? = some none ∧
        ∀ i, i < toks.length → args[i]? = (toks[i]?).map some) ∧
      (shell_split_line_traced line).1 = shell_split_line line ∧
      (shell_split_line_traced line).2
        = (List.range (toks.length + 1)).map (fun j => (j, 64 * (j / 64 + 1))) ∧
      (∀ wr ∈ (shell_split_line_traced line).2, wr.1 < wr.2) ∧
      ((shell_split_line_traced line).2.head? = some (0, SHELL_TOK_BUFSIZE)) := by
  refine ⟨runs_of (cstr line), rfl, shell_split_line_eq line, ?_,
    split_loop_traced_erase _ _ _ _ _ _ _, shell_split_line_traced_writes line, ?_, ?_⟩
  · intro args h
    rw [shell_split_line_eq] at h
    have := Except.ok.inj h
    subst this
    refine ⟨by simp, ?_, fun i hi => ?_⟩
    · rw [List.getElem?_append_right (by simp)]
      simp
    · rw [List.getElem?_append_left (by simpa using hi)]
      simp [List.getElem?_map]
  · intro wr hwr
    rw [shell_split_line_traced_writes] at hwr
    obtain ⟨j, _, rfl⟩ := List.mem_map.mp hwr
    show j < 64 * (j / 64 + 1)
    omega
  · rw [shell_split_line_traced_writes]
    simp [List.range_succ_eq_map, SHELL_TOK_BUFSIZE]

/-! ## `shell_readline` -/

theorem readline_loop_spec (input : List Char) :
    ∀ (bufsize position : Nat) (buffer : List Char),
      position = buffer.length → position < bufsize →
      readline_loop input bufsize position buffer
        = .ok (buffer ++ input.takeWhile (fun c => c != '\n') ++ [NUL],
            (input.dropWhile (fun c => c != '\n')).tail) := by
  induction input with
  | nil =>
    intro bufsize position buffer hp hb
    subst hp
    simp [readline_loop, store_char, hb]
  | cons c input ih =>
    intro bufsize position buffer hp hb
    subst hp
    by_cases hc : c = '\n'
    · subst hc
      simp [readline_loop, store_char, hb]
    · have hst : store_char buffer bufsize buffer.length c = .ok (buffer ++ [c]) := by
        simp [store_char, hb]
      simp only [readline_loop, if_neg hc, hst]
      rw [ih _ _ _ (by simp) (by simp only [SHELL_RL_BUFSIZE]; split <;> omega)]
      simp [List.takeWhile_cons, List.dropWhile_cons, hc]

theorem shell_readline_eq (w : World) :
    shell_readline w
      = .ok (w.stdin.takeWhile (fun c => c != '\n') ++ [NUL],
          { w with stdin := (w.stdin.dropWhile (fun c => c != '\n')).tail }) := by
  unfold shell_readline
  rw [readline_loop_spec w.stdin SHELL_RL_BUFSIZE 0 [] rfl (by decide)]
  simp

theorem takeWhile_line (line rest : List Char) (h : '\n' ∉ line) :
    (line ++ '\n' :: rest).takeWhile (fun c => c != '\n') = line ∧
      (line ++ '\n' :: rest).dropWhile (fun c => c != '\n') = '\n' :: rest := by
  induction line with
  | nil => simp
  | cons c line ih =>
    have hc : c ≠ '\n' := fun e => h (by simp [e])
    have := ih (fun hm => h (List.mem_cons_of_mem _ hm))
    simp [List.takeWhile_cons, List.dropWhile_cons, hc, this.1, this.2]

theorem takeWhile_last_line (line : List Char) (h : '\n' ∉ line) :
    line.takeWhile (fun c => c != '\n') = line ∧
      line.dropWhile (fun c => c != '\n') = [] := by
  induction line with
  | nil => simp
  | cons c line ih =>
    have hc : c ≠ '\n' := fun e => h (by simp [e])
    have := ih (fun hm => h (List.mem_cons_of_mem _ hm))
    simp [List.takeWhile_cons, List.dropWhile_cons, hc, this.1, this.2]

theorem cstr_append_nul (line : List Char) : cstr (line ++ [NUL]) = cstr line := by
  induction line with
  | nil => simp [cstr]
  | cons c line ih =>
    by_cases hc : c = NUL
    · subst hc; simp [cstr_nul]
    · rw [List.cons_append, cstr_cons c _ hc, cstr_cons c _ hc, ih]

/-- C14, as amended. For every input stream, `shell_readline` returns a buffer that holds
exactly the bytes that come before the first newline (before the end of the stream when no
newline is left), whatever their number, 1024 and more included, then the terminating NUL,
and it reads the stream up to and including that newline; at the end of the stream the
buffer holds the empty string.  The C string returned is these bytes when none of them is
NUL; in general it is their part before the first NUL. -/
theorem readline_returns_line (w : World) (line : List Char) (hline : '\n' ∉ line) :
    (∀ rest, w.stdin = line ++ '\n' :: rest →
      shell_readline w = .ok (line ++ [NUL], { w with stdin := rest })) ∧
    (w.stdin = line →
      shell_readline w = .ok (line ++ [NUL], { w with stdin := [] })) ∧
    (NUL ∉ line → cstr (line ++ [NUL]) = line) ∧
    cstr (line ++ [NUL]) = cstr line ∧
    (w.stdin = [] → shell_readline w = .ok ([NUL], w) ∧ cstr [NUL] = []) := by
  refine ⟨fun rest h => ?_, fun h => ?_, fun hn => ?_, cstr_append_nul line, fun h => ?_⟩
  · rw [shell_readline_eq, h, (takeWhile_line line rest hline).1,
      (takeWhile_line line rest hline).2]
    rfl
  · rw [shell_readline_eq, h, (takeWhile_last_line line hline).1,
      (takeWhile_last_line line hline).2]
    rfl
  · rw [cstr_append_nul, cstr_no_nul line hn]
  · refine ⟨?_, cstr_nul []⟩
    rw [shell_readline_eq, h]
    simp only [List.takeWhile_nil, List.dropWhile_nil, List.tail_nil, List.nil_append]
    rw [← h]

theorem readline_returns_line_witness :
    '\n' ∉ List.replicate 2048 'x' ++ " y".toList ∧
      shell_readline { sample_world with
          stdin := (List.replicate 2048 'x' ++ " y".toList) ++ '\n' :: "exit\n".toList }
        = .ok ((List.replicate 2048 'x' ++ " y".toList) ++ [NUL],
            { { sample_world with
                  stdin := (List.replicate 2048 'x' ++ " y".toList)
                    ++ '\n' :: "exit\n".toList } with
              stdin := "exit\n".toList }) :=
  ⟨fun h => (List.mem_append.mp h).elim
      (fun h1 => absurd (List.eq_of_mem_replicate h1) (by decide))
      (fun h2 => absurd h2 (by decide)),
    (readline_returns_line
      { sample_world with
          stdin := (List.replicate 2048 'x' ++ " y".toList) ++ '\n' :: "exit\n".toList }
      (List.replicate 2048 'x' ++ " y".toList)
      (fun h => (List.mem_append.mp h).elim
        (fun h1 => absurd (List.eq_of_mem_replicate h1) (by decide))
        (fun h2 => absurd h2 (by decide)))).1 "exit\n".toList rfl⟩

/-- C14, counterexample. On the input `a`, NUL, `b`, newline the bytes before the newline
are `a`, NUL, `b`; the buffer returned holds them, and the C string returned is `a`. -/
theorem readline_cuts_at_nul :
    (shell_readline { sample_world with stdin := ['a', NUL, 'b', '\n'] }).map
        (fun r => (r.1, cstr r.1, r.2.stdin))
      = .ok (['a', NUL, 'b', NUL], ['a'], []) ∧
    ['a'] ≠ ['a', NUL, 'b'] :=
  ⟨rfl, by decide⟩

/-! ## `shell_loop` -/

theorem shell_help_loop_frame (n : Nat) :
    ∀ (w : World) (i : Nat),
      (shell_help_loop w n i).stdin = w.stdin ∧
      (shell_help_loop w n i).os_launch = w.os_launch ∧
      (shell_help_loop w n i).nfork = w.nfork := by
  induction n with
  | zero => intro w i; exact ⟨rfl, rfl, rfl⟩
  | succ n ih => intro w i; rw [shell_help_loop]; exact ih _ _

theorem wait_loop_frame (waits : List WStatus) :
    ∀ (w : World) (pid : Int) (fails : Bool) (st0 : WStatus),
      (wait_loop w pid fails st0 waits).2.stdin = w.stdin ∧
      (wait_loop w pid fails st0 waits).2.os_launch = w.os_launch ∧
      (wait_loop w pid fails st0 waits).2.nfork = w.nfork := by
  induction waits with
  | nil =>
    intro w pid fails st0
    simp only [wait_loop]
    split
    · split <;> exact ⟨rfl, rfl, rfl⟩
    · exact ⟨rfl, rfl, rfl⟩
  | cons st waits ih =>
    intro w pid fails st0
    simp only [wait_loop]
    split
    · exact ih _ _ _ _
    · exact ⟨rfl, rfl, rfl⟩

/-- A handler neither reads the input, nor changes the answers of the system, nor launches
a program, and it only adds to the trace. -/
theorem shell_cd_frame (w : World) (args : Args) :
    (shell_cd w args).2.stdin = w.stdin ∧ (shell_cd w args).2.os_launch = w.os_launch ∧
      w.trace <+: (shell_cd w args).2.trace ∧ (shell_cd w args).2.nfork = w.nfork := by
  unfold shell_cd
  cases arg args 1 with
  | none => simp [World.log, World.eprintf]
  | some path =>
    simp only []
    split <;> simp [World.log, World.eprintf, World.perror, List.prefix_append_right_inj]

theorem shell_help_frame (w : World) (args : Args) :
    (shell_help w args).2.stdin = w.stdin ∧ (shell_help w args).2.os_launch = w.os_launch ∧
      w.trace <+: (shell_help w args).2.trace ∧ (shell_help w args).2.nfork = w.nfork := by
  refine ⟨?_, ?_, ?_, ?_⟩
  · simp [shell_help, World.printf, World.log, (shell_help_loop_frame _ _ _).1]
  · simp [shell_help, World.printf, World.log, (shell_help_loop_frame _ _ _).2.1]
  · simp [shell_help, World.printf, World.log, shell_help_loop_trace]
  · simp [shell_help, World.printf, World.log, (shell_help_loop_frame _ _ _).2.2]

theorem shell_plus_frame (w : World) (args : Args) :
    (shell_plus w args).2.stdin = w.stdin ∧ (shell_plus w args).2.os_launch = w.os_launch ∧
      w.trace <+: (shell_plus w args).2.trace ∧ (shell_plus w args).2.nfork = w.nfork := by
  unfold shell_plus
  cases arg args 1 with
  | none => simp [World.log, World.eprintf]
  | some a =>
    cases arg args 2 with
    | none => simp [World.log, World.eprintf]
    | some b =>
      simp only []
      split <;> simp [World.log, World.eprintf, World.printf]

theorem shell_exit_frame (w : World) (args : Args) :
    (shell_exit w args).2.stdin = w.stdin ∧ (shell_exit w args).2.os_launch = w.os_launch ∧
      w.trace <+: (shell_exit w args).2.trace ∧ (shell_exit w args).2.nfork = w.nfork := by
  simp [shell_exit, World.log]

/-- A launch does not change the answers of the system, only adds to the trace and counts one
more `fork`; in the shell process that waits for a child, the input left to read is what the
child has made of it, and otherwise it is the same. -/
theorem shell_launch_frame (w : World) (args : Args) :
    (shell_launch w args).2.stdin
        = (if 0 < (w.os_launch w.nfork).pid then (w.os_launch w.nfork).stdin_after w.stdin
           else w.stdin) ∧
      (shell_launch w args).2.os_launch = w.os_launch ∧
      w.trace <+: (shell_launch w args).2.trace ∧
      (shell_launch w args).2.nfork = w.nfork + 1 := by
  by_cases h0 : (w.os_launch w.nfork).pid = 0
  · cases ha : arg args 0 with
    | none => simp [shell_launch, h0, ha, World.log]
    | some file =>
      by_cases he : (w.os_launch w.nfork).exec_ok = true
      · simp [shell_launch, h0, ha, he, World.log]
      · simp [shell_launch, h0, ha, he, World.log, World.perror, World.eprintf]
  · by_cases h1 : (w.os_launch w.nfork).pid < 0
    · have h2 : ¬ 0 < (w.os_launch w.nfork).pid := by omega
      simp [shell_launch, h0, h1, h2, World.log, World.perror, World.eprintf]
    · have h : 0 < (w.os_launch w.nfork).pid := by omega
      refine ⟨?_, ?_, ?_, ?_⟩
      · rw [shell_launch_parent w args h, (wait_loop_frame _ _ _ _ _).1, if_pos h]
      · rw [shell_launch_parent w args h, (wait_loop_frame _ _ _ _ _).2.1]; rfl
      · rw [shell_launch_parent_trace w args h, List.append_assoc]
        exact List.prefix_append _ _
      · rw [shell_launch_parent w args h, (wait_loop_frame _ _ _ _ _).2.2]

/-- A dispatch does not change the answers of the system, only adds to the trace and does not
take back a `fork`; it leaves the input as it is when the child of the next launch, if there
is one, leaves it as it is. -/
theorem shell_execute_frame (w : World) (toks : List Tok) :
    ((∀ s, (w.os_launch w.nfork).stdin_after s = s) →
        (shell_execute w (argv toks)).2.stdin = w.stdin) ∧
      (shell_execute w (argv toks)).2.os_launch = w.os_launch ∧
      w.trace <+: (shell_execute w (argv toks)).2.trace ∧
      w.nfork ≤ (shell_execute w (argv toks)).2.nfork := by
  cases toks with
  | nil => exact ⟨fun _ => rfl, rfl, List.prefix_refl _, Nat.le_refl _⟩
  | cons t rest =>
    have hb := execute_builtin w t rest
    by_cases hm : t ∈ builtin_str
    · simp only [builtin_str, List.mem_cons, List.mem_singleton, List.not_mem_nil,
        or_false] at hm
      rcases hm with h | h | h | h
      · rw [hb.1 h]
        have hf := shell_cd_frame w (argv (t :: rest))
        exact ⟨fun _ => hf.1, hf.2.1, hf.2.2.1, Nat.le_of_eq hf.2.2.2.symm⟩
      · rw [hb.2.1 h]
        have hf := shell_help_frame w (argv (t :: rest))
        exact ⟨fun _ => hf.1, hf.2.1, hf.2.2.1, Nat.le_of_eq hf.2.2.2.symm⟩
      · rw [hb.2.2.1 h]
        have hf := shell_plus_frame w (argv (t :: rest))
        exact ⟨fun _ => hf.1, hf.2.1, hf.2.2.1, Nat.le_of_eq hf.2.2.2.symm⟩
      · rw [hb.2.2.2 h]
        have hf := shell_exit_frame w (argv (t :: rest))
        exact ⟨fun _ => hf.1, hf.2.1, hf.2.2.1, Nat.le_of_eq hf.2.2.2.symm⟩
    · rw [execute_external w t rest hm]
      have hf := shell_launch_frame w (argv (t :: rest))
      refine ⟨fun hq => ?_, hf.2.1, hf.2.2.1, by rw [hf.2.2.2]; exact Nat.le_succ _⟩
      rw [hf.1, hq]
      simp

theorem execute_ret (w : World) (toks : List Tok) :
    (∀ r, (shell_execute w (argv toks)).1 = .ret r →
      r = if toks.head? = some "exit".toList then 0 else 1) ∧
    (env_returns (w.os_launch w.nfork) = true →
      (shell_execute w (argv toks)).1
        = .ret (if toks.head? = some "exit".toList then 0 else 1)) := by
  cases toks with
  | nil =>
    have h : (shell_execute w (argv [])).1 = .ret 1 := rfl
    rw [h]
    exact ⟨fun r hr => (Outcome.ret.inj hr).symm, fun _ => rfl⟩
  | cons t rest =>
    have hb := execute_builtin w t rest
    have hhead : ((t :: rest).head? = some "exit".toList) ↔ t = "exit".toList := by
      simp
    by_cases hm : t ∈ builtin_str
    · simp only [builtin_str, List.mem_cons, List.mem_singleton, List.not_mem_nil,
        or_false] at hm
      have key : (shell_execute w (argv (t :: rest))).1
          = .ret (if (t :: rest).head? = some "exit".toList then 0 else 1) := by
        rcases hm with h | h | h | h
        · rw [hb.1 h, shell_cd_ret, if_neg (by rw [hhead, h]; decide)]
        · rw [hb.2.1 h, shell_help_ret, if_neg (by rw [hhead, h]; decide)]
        · rw [hb.2.2.1 h, shell_plus_ret, if_neg (by rw [hhead, h]; decide)]
        · rw [hb.2.2.2 h, if_pos (hhead.mpr h)]; rfl
      rw [key]
      exact ⟨fun r hr => (Outcome.ret.inj hr).symm, fun _ => rfl⟩
    · have hne : ¬ (t :: rest).head? = some "exit".toList :=
        fun e => hm (by rw [hhead.mp e]; decide)
      rw [execute_external w t rest hm, if_neg hne]
      have hl := shell_launch_ret w (argv (t :: rest))
      exact ⟨hl.1, fun h => hl.2 h⟩

theorem callee_builtin (t : Tok) :
    (t = "cd".toList → callee t = .shell_cd) ∧ (t = "help".toList → callee t = .shell_help) ∧
    (t = "plus".toList → callee t = .shell_plus) ∧ (t = "exit".toList → callee t = .shell_exit) ∧
    (t ∉ builtin_str → callee t = .shell_launch) := by
  refine ⟨?_, ?_, ?_, ?_, ?_⟩
  · rintro rfl; decide
  · rintro rfl; decide
  · rintro rfl; decide
  · rintro rfl; decide
  · intro h
    simp only [builtin_str, List.mem_cons, List.mem_singleton, List.not_mem_nil, or_false,
      not_or] at h
    unfold callee
    rw [if_neg h.1, if_neg h.2.1, if_neg h.2.2.1, if_neg h.2.2.2]

theorem new_calls_execute (w : World) (toks : List Tok) :
    new_calls w (shell_execute w (argv toks))
      = match toks with
        | [] => []
        | t :: rest => [(callee t, argv (t :: rest))] := by
  cases toks with
  | nil => simp [new_calls, shell_execute, argv, arg]
  | cons t rest =>
    have hb := execute_builtin w t rest
    have hc := callee_builtin t
    show _ = [(callee t, argv (t :: rest))]
    by_cases hm : t ∈ builtin_str
    · simp only [builtin_str, List.mem_cons, List.mem_singleton, List.not_mem_nil,
        or_false] at hm
      rcases hm with h | h | h | h
      · rw [hb.1 h, hc.1 h]; exact new_calls_shell_cd w _
      · rw [hb.2.1 h, hc.2.1 h]; exact new_calls_shell_help w _
      · rw [hb.2.2.1 h, hc.2.2.1 h]; exact new_calls_shell_plus w _
      · rw [hb.2.2.2 h, hc.2.2.2.1 h]; exact new_calls_shell_exit w _
    · rw [execute_external w t rest hm, hc.2.2.2.2 hm]
      exact new_calls_shell_launch w _

/-- The lines of a stream: the bytes before the first newline, then the lines of what
follows that newline, if there is one. -/
theorem lines_of_eq (s : List Char) :
    lines_of s = s.takeWhile (fun c => c != '\n')
      :: (match s.dropWhile (fun c => c != '\n') with
          | [] => []
          | _ :: r => lines_of r) := by
  induction s with
  | nil => rfl
  | cons c s ih =>
    by_cases hc : c = '\n'
    · subst hc
      simp [lines_of, List.splitOn, List.splitOnP_cons]
    · have h1 : lines_of (c :: s) = (lines_of s).modifyHead (List.cons c) := by
        simp [lines_of, List.splitOn, List.splitOnP_cons, hc]
      rw [h1, ih]
      simp [List.takeWhile_cons, List.dropWhile_cons, hc, List.modifyHead]

theorem shell_loop_body_eq (w : World) :
    shell_loop_body w
      = .ok (shell_execute
          { w.printf (prompt w) with
            stdin := (w.stdin.dropWhile (fun c => c != '\n')).tail }
          (argv (runs_of (cstr (w.stdin.takeWhile (fun c => c != '\n')))))) := by
  unfold shell_loop_body
  simp only [shell_readline_eq, shell_split_line_eq, cstr_append_nul]
  rfl

theorem loop_pass_continue (w : World) (n : Nat) (r : Int) (hr : r ≠ 0)
    (h : (shell_execute (after_read w) (argv (tokens_read w))).1 = .ret r) :
    loop_passes (n + 1) w
      = loop_passes n (shell_execute (after_read w) (argv (tokens_read w))).2 := by
  have hb : shell_loop_body w = .ok (shell_execute (after_read w) (argv (tokens_read w))) :=
    shell_loop_body_eq w
  rw [loop_passes, hb]
  generalize shell_execute (after_read w) (argv (tokens_read w)) = res at h
  obtain ⟨o, w2⟩ := res
  simp only at h
  subst h
  simp [hr]

theorem loop_pass_stop (w : World) (n : Nat)
    (h : (shell_execute (after_read w) (argv (tokens_read w))).1 = .ret 0) :
    loop_passes (n + 1) w
      = .loop .STOPPED (shell_execute (after_read w) (argv (tokens_read w))).2 := by
  have hb : shell_loop_body w = .ok (shell_execute (after_read w) (argv (tokens_read w))) :=
    shell_loop_body_eq w
  rw [loop_passes, hb]
  generalize shell_execute (after_read w) (argv (tokens_read w)) = res at h
  obtain ⟨o, w2⟩ := res
  simp only at h
  subst h
  simp

/-- What the first line of the input is, and what the input is once it is read. -/
theorem lines_of_first (w : World) (b : List Char) (L : List (List Char))
    (h : lines_of w.stdin = b :: L) :
    first_token b = (tokens_read w).head? ∧
      dispatch_of b = (match tokens_read w with
                       | [] => none
                       | t :: rest => some (callee t, argv (t :: rest))) ∧
      (after_read w).stdin = ['\n'].intercalate L ∧
      (L ≠ [] → lines_of (after_read w).stdin = L) ∧
      (L = [] → (after_read w).stdin = []) := by
  rw [lines_of_eq] at h
  have hb : w.stdin.takeWhile (fun c => c != '\n') = b := (List.cons.inj h).1
  have hL := (List.cons.inj h).2
  have hstd : (after_read w).stdin = (w.stdin.dropWhile (fun c => c != '\n')).tail := rfl
  refine ⟨by rw [first_token, tokens_read, hb], by rw [dispatch_of, tokens_read, hb], ?_, ?_, ?_⟩
  · rw [hstd]
    cases hd : w.stdin.dropWhile (fun c => c != '\n') with
    | nil => rw [hd] at hL; rw [← hL]; rfl
    | cons c r =>
      rw [hd] at hL
      rw [← hL]
      exact (List.intercalate_splitOn r '\n').symm
  · intro hne
    rw [hstd]
    cases hd : w.stdin.dropWhile (fun c => c != '\n') with
    | nil => rw [hd] at hL; exact absurd hL.symm hne
    | cons c r => rw [hd] at hL; exact hL
  · intro he
    rw [hstd]
    cases hd : w.stdin.dropWhile (fun c => c != '\n') with
    | nil => rfl
    | cons c r =>
      rw [hd] at hL
      rw [he] at hL
      exact absurd hL (List.splitOnP_ne_nil _ _)

theorem tokens_read_eq (w : World) (b : List Char) (L : List (List Char))
    (h : lines_of w.stdin = b :: L) : tokens_read w = runs_of (cstr b) := by
  rw [lines_of_eq] at h
  rw [tokens_read, (List.cons.inj h).1]

theorem new_calls_trans (w w1 w3 : World) (o o1 o3 : Outcome)
    (h1 : w.trace <+: w1.trace) (h3 : w1.trace <+: w3.trace) :
    new_calls w (o, w3) = new_calls w (o1, w1) ++ new_calls w1 (o3, w3) := by
  obtain ⟨es1, he1⟩ := h1
  obtain ⟨es3, he3⟩ := h3
  simp only [new_calls, ← he3, ← he1]
  simp [List.filterMap_append]

theorem after_read_frame (w : World) :
    (after_read w).os_launch = w.os_launch ∧ (after_read w).trace = w.trace ∧
      (after_read w).nfork = w.nfork :=
  ⟨rfl, rfl, rfl⟩

theorem filterMap_dispatch_cons (b : List Char) (before : List (List Char)) :
    (b :: before).filterMap dispatch_of
      = (match runs_of (cstr b) with
         | [] => []
         | t :: rest => [(callee t, argv (t :: rest))]) ++ before.filterMap dispatch_of := by
  rw [List.filterMap_cons]
  unfold dispatch_of
  cases runs_of (cstr b) <;> rfl

/-- One pass of the loop over a line whose first token is not `exit`, the launch to come, if
the line asks for one, being a quiet one. -/
theorem loop_pass_quiet (w : World) (hq : quiet_launch (w.os_launch w.nfork))
    (hne : (tokens_read w).head? ≠ some "exit".toList) :
    (∀ n, loop_passes (n + 1) w
        = loop_passes n (shell_execute (after_read w) (argv (tokens_read w))).2) ∧
      (shell_execute (after_read w) (argv (tokens_read w))).2.stdin = (after_read w).stdin ∧
      (shell_execute (after_read w) (argv (tokens_read w))).2.os_launch = w.os_launch ∧
      w.trace <+: (shell_execute (after_read w) (argv (tokens_read w))).2.trace ∧
      w.nfork ≤ (shell_execute (after_read w) (argv (tokens_read w))).2.nfork := by
  have hret := (execute_ret (after_read w) (tokens_read w)).2 hq.1
  rw [if_neg hne] at hret
  have hfr := shell_execute_frame (after_read w) (tokens_read w)
  exact ⟨fun n => loop_pass_continue w n 1 (by decide) hret, hfr.1 hq.2, hfr.2.1, hfr.2.2.1,
    hfr.2.2.2⟩

/-- The passes over the lines that come before some line of the input, none of which has
`exit` as first token, every launch from here on being a quiet one. -/
theorem loop_passes_before (before : List (List Char)) :
    ∀ (w : World) (L : List (List Char)), L ≠ [] →
      lines_of w.stdin = before ++ L →
      (∀ b ∈ before, first_token b ≠ some "exit".toList) →
      (∀ n, w.nfork ≤ n → quiet_launch (w.os_launch n)) →
      ∃ w2, (∀ m, loop_passes (before.length + m) w = loop_passes m w2) ∧
        lines_of w2.stdin = L ∧ w2.os_launch = w.os_launch ∧
        w.trace <+: w2.trace ∧ w.nfork ≤ w2.nfork ∧
        new_calls w (.ret 1, w2) = before.filterMap dispatch_of ∧
        (∀ j, j ≤ before.length → ∃ wj, loop_passes j w = .loop .RUNNING wj) := by
  induction before with
  | nil =>
    intro w L _ hl _ _
    refine ⟨w, fun m => by simp, by simpa using hl, rfl, List.prefix_refl _, Nat.le_refl _,
      ?_, ?_⟩
    · simp [new_calls]
    · intro j hj
      have : j = 0 := by simpa using hj
      subst this
      exact ⟨w, rfl⟩
  | cons b before ih =>
    intro w L hne hl hnb hos
    have hl2 : lines_of w.stdin = b :: (before ++ L) := by simpa using hl
    have hfirst := lines_of_first w b (before ++ L) hl2
    have hne2 : before ++ L ≠ [] := by simp [hne]
    have hbne : (tokens_read w).head? ≠ some "exit".toList := by
      rw [← hfirst.1]; exact hnb b (List.mem_cons_self _ _)
    obtain ⟨hstep, hin, hosl1, hpre1, hnf1⟩ := loop_pass_quiet w (hos _ (Nat.le_refl _)) hbne
    obtain ⟨w2, hpass, hlines, hosl, hpre, hnf, hcalls, hrun⟩ :=
      ih (shell_execute (after_read w) (argv (tokens_read w))).2 L hne
        (by rw [hin]; exact hfirst.2.2.2.1 hne2)
        (fun x hx => hnb x (List.mem_cons_of_mem _ hx))
        (fun n hn => by rw [hosl1]; exact hos n (Nat.le_trans hnf1 hn))
    refine ⟨w2, fun m => ?_, hlines, ?_, hpre1.trans hpre, Nat.le_trans hnf1 hnf, ?_, ?_⟩
    · rw [List.length_cons, show before.length + 1 + m = (before.length + m) + 1 by omega,
        hstep, hpass]
    · rw [hosl, hosl1]
    · rw [new_calls_trans w _ w2 (.ret 1) (.ret 1) (.ret 1) hpre1 hpre, hcalls,
        filterMap_dispatch_cons]
      congr 1
      have hnc := new_calls_execute (after_read w) (tokens_read w)
      have hsame : new_calls w (.ret 1, (shell_execute (after_read w) (argv (tokens_read w))).2)
          = new_calls (after_read w) (shell_execute (after_read w) (argv (tokens_read w))) := by
        simp [new_calls, (after_read_frame w).2.1]
      rw [hsame, hnc, tokens_read_eq w b _ hl2]
    · intro j hj
      cases j with
      | zero => exact ⟨w, rfl⟩
      | succ j =>
        rw [hstep]
        exact hrun j (by simpa using hj)

/-- The passes up to the first line of the input that has `exit` as first token, every
launch from here on being a quiet one: the loop is RUNNING after each pass over a line
before that line and STOPPED after the pass over it, the calls made are the dispatch of
each of these lines in order, and what follows the line is left unread. -/
theorem loop_passes_to_exit (w : World) (before after : List (List Char)) (l : List Char)
    (hlines : lines_of w.stdin = before ++ l :: after)
    (hbefore : ∀ b ∈ before, first_token b ≠ some "exit".toList)
    (hl : first_token l = some "exit".toList)
    (hos : ∀ n, w.nfork ≤ n → quiet_launch (w.os_launch n)) :
    (∀ j, j ≤ before.length → ∃ wj, loop_passes j w = .loop .RUNNING wj) ∧
    ∃ w3, (∀ m, loop_passes (before.length + 1 + m) w = .loop .STOPPED w3) ∧
      w3.stdin = ['\n'].intercalate after ∧ w.trace <+: w3.trace ∧
      new_calls w (.ret 0, w3) = (before ++ [l]).filterMap dispatch_of := by
  obtain ⟨w2, hpass, hl2, hosl, hpre, hnf, hcalls, hrun⟩ :=
    loop_passes_before before w (l :: after) (by simp) hlines hbefore hos
  have hfirst := lines_of_first w2 l after hl2
  have hhead : (tokens_read w2).head? = some "exit".toList := by rw [← hfirst.1]; exact hl
  have hq : quiet_launch ((after_read w2).os_launch (after_read w2).nfork) := by
    rw [(after_read_frame w2).1, (after_read_frame w2).2.2, hosl]; exact hos _ hnf
  have hret := (execute_ret (after_read w2) (tokens_read w2)).2 hq.1
  rw [if_pos hhead] at hret
  have hfr := shell_execute_frame (after_read w2) (tokens_read w2)
  have hpre3 : w2.trace <+: (shell_execute (after_read w2) (argv (tokens_read w2))).2.trace := by
    have := hfr.2.2.1
    rwa [(after_read_frame w2).2.1] at this
  refine ⟨hrun, (shell_execute (after_read w2) (argv (tokens_read w2))).2, ?_, ?_,
    hpre.trans hpre3, ?_⟩
  · intro m
    rw [show before.length + 1 + m = before.length + (m + 1) by omega, hpass,
      loop_pass_stop w2 m hret]
  · rw [hfr.1 hq.2]; exact hfirst.2.2.1
  · rw [new_calls_trans w w2 _ (.ret 0) (.ret 1) (.ret 0) hpre hpre3, hcalls,
      List.filterMap_append]
    have hsame : new_calls w2 (.ret 0, (shell_execute (after_read w2) (argv (tokens_read w2))).2)
        = new_calls (after_read w2) (shell_execute (after_read w2) (argv (tokens_read w2))) := by
      simp [new_calls, (after_read_frame w2).2.1]
    rw [hsame, new_calls_execute, tokens_read_eq w2 l after hl2]
    congr 1
    have := filterMap_dispatch_cons l []
    simpa using this.symm

/-- One pass of the loop over a line that names an external program, in the shell process
that comes to see the end of the child: the loop goes on, and the input left to read is what
the child has made of the input that follows the line. -/
theorem loop_pass_launch (w : World) (t : Tok) (rest : List Tok)
    (htok : tokens_read w = t :: rest) (ht : t ∉ builtin_str)
    (hpid : 0 < (w.os_launch w.nfork).pid)
    (hret : env_returns (w.os_launch w.nfork) = true) :
    ∃ w1, (∀ n, loop_passes (n + 1) w = loop_passes n w1) ∧
      w1.stdin = (w.os_launch w.nfork).stdin_after (after_read w).stdin ∧
      w1.os_launch = w.os_launch ∧ w1.nfork = w.nfork + 1 ∧ w.trace <+: w1.trace ∧
      new_calls w (.ret 1, w1) = [(.shell_launch, argv (t :: rest))] := by
  have hne : (tokens_read w).head? ≠ some "exit".toList := by
    rw [htok]
    intro e
    exact ht (by rw [Option.some.inj e]; decide)
  have hr := (execute_ret (after_read w) (tokens_read w)).2 hret
  rw [if_neg hne] at hr
  have hex : shell_execute (after_read w) (argv (tokens_read w))
      = shell_launch (after_read w) (argv (t :: rest)) := by
    rw [htok]; exact execute_external _ t rest ht
  have hf := shell_launch_frame (after_read w) (argv (t :: rest))
  refine ⟨(shell_execute (after_read w) (argv (tokens_read w))).2,
    fun n => loop_pass_continue w n 1 (by decide) hr, ?_, ?_, ?_, ?_, ?_⟩
  · rw [hex, hf.1]
    exact if_pos hpid
  · rw [hex, hf.2.1]; rfl
  · rw [hex, hf.2.2.2]; rfl
  · rw [hex]; exact hf.2.2.1
  · have hsame : new_calls w (.ret 1, (shell_execute (after_read w) (argv (tokens_read w))).2)
        = new_calls (after_read w) (shell_execute (after_read w) (argv (tokens_read w))) := by
      simp [new_calls, (after_read_frame w).2.1]
    rw [hsame, hex]
    exact new_calls_shell_launch _ _

/-- A run that starts with the launch of an external program whose child may move the input
of the shell, every later launch being a quiet one: after the pass over the first line, the
loop goes over the lines of the input that the child has left, up to the first of them that
has `exit` as first token. -/
theorem loop_launch_then_exit (w : World) (t : Tok) (rest : List Tok)
    (before after : List (List Char)) (l : List Char)
    (htok : tokens_read w = t :: rest) (ht : t ∉ builtin_str)
    (hpid : 0 < (w.os_launch w.nfork).pid)
    (hret : env_returns (w.os_launch w.nfork) = true)
    (hlines : lines_of ((w.os_launch w.nfork).stdin_after (after_read w).stdin)
      = before ++ l :: after)
    (hbefore : ∀ b ∈ before, first_token b ≠ some "exit".toList)
    (hl : first_token l = some "exit".toList)
    (hos : ∀ n, w.nfork < n → quiet_launch (w.os_launch n)) :
    (∀ j, j ≤ before.length + 1 → ∃ wj, loop_passes j w = .loop .RUNNING wj) ∧
    ∃ w3, (∀ m, loop_passes (before.length + 2 + m) w = .loop .STOPPED w3) ∧
      w3.stdin = ['\n'].intercalate after ∧ w.trace <+: w3.trace ∧
      new_calls w (.ret 0, w3)
        = (.shell_launch, argv (t :: rest)) :: (before ++ [l]).filterMap dispatch_of := by
  obtain ⟨w1, hstep, hin, hosl, hnf, hpre, hcalls⟩ :=
    loop_pass_launch w t rest htok ht hpid hret
  obtain ⟨hrun, w3, hstop, hin3, hpre3, hcalls3⟩ :=
    loop_passes_to_exit w1 before after l (by rw [hin]; exact hlines) hbefore hl
      (fun n hn => by rw [hosl]; exact hos n (by omega))
  refine ⟨fun j hj => ?_, w3, fun m => ?_, hin3, hpre.trans hpre3, ?_⟩
  · cases j with
    | zero => exact ⟨w, rfl⟩
    | succ j => rw [hstep]; exact hrun j (by omega)
  · rw [show before.length + 2 + m = (before.length + 1 + m) + 1 by omega, hstep, hstop]
  · rw [new_calls_trans w w1 w3 (.ret 0) (.ret 1) (.ret 0) hpre hpre3, hcalls, hcalls3]
    rfl

theorem first_token_nil : first_token [] ≠ some "exit".toList := by
  decide

theorem lines_after_read (w : World) (P : List Char → Prop) (hnil : P [])
    (h : ∀ l ∈ lines_of w.stdin, P l) :
    ∀ l ∈ lines_of (after_read w).stdin, P l := by
  have he := lines_of_eq w.stdin
  have hfirst := lines_of_first w _ _ he
  intro l hl
  by_cases hL : (match w.stdin.dropWhile (fun c => c != '\n') with
      | [] => []
      | _ :: r => lines_of r) = []
  · rw [hfirst.2.2.2.2 hL] at hl
    have : l = [] := by simpa [lines_of, List.splitOn] using hl
    rw [this]; exact hnil
  · rw [hfirst.2.2.2.1 hL] at hl
    exact h l (by rw [he]; exact List.mem_cons_of_mem _ hl)

theorem head_not_exit (w : World)
    (h : ∀ l ∈ lines_of w.stdin, first_token l ≠ some "exit".toList) :
    (tokens_read w).head? ≠ some "exit".toList := by
  have he := lines_of_eq w.stdin
  rw [← (lines_of_first w _ _ he).1]
  exact h _ (by rw [he]; exact List.mem_cons_self _ _)

/-- Without a line that has `exit` as first token, every launch from here on being a quiet
one, the loop is RUNNING after every pass. -/
theorem loop_passes_no_exit (n : Nat) :
    ∀ w : World, (∀ l ∈ lines_of w.stdin, first_token l ≠ some "exit".toList) →
      (∀ k, w.nfork ≤ k → quiet_launch (w.os_launch k)) →
      ∃ w2, loop_passes n w = .loop .RUNNING w2 := by
  induction n with
  | zero =>
    intro w _ _
    exact ⟨w, rfl⟩
  | succ n ih =>
    intro w hno hos
    have hhead := head_not_exit w hno
    have hnext := lines_after_read w (fun l => first_token l ≠ some "exit".toList)
      first_token_nil hno
    obtain ⟨hstep, hin, hosl1, _, hnf1⟩ := loop_pass_quiet w (hos _ (Nat.le_refl _)) hhead
    rw [hstep]
    exact ih _ (by rw [hin]; exact hnext)
      (fun k hk => by rw [hosl1]; exact hos k (Nat.le_trans hnf1 hk))

theorem after_read_at_eof (w : World) (h : w.stdin = []) :
    after_read w = w.printf (prompt w) ∧ tokens_read w = [] := by
  obtain ⟨stdin, stdout, stderr, cwd, trace, nfork, os_chdir, os_launch, pw_name, hostname⟩ := w
  simp only at h
  subst h
  exact ⟨rfl, rfl⟩

/-- At the end of the input each pass reads the empty line, dispatches nothing and leaves
the loop RUNNING with the input still at its end. -/
theorem loop_passes_at_eof (n : Nat) :
    ∀ w : World, w.stdin = [] →
      ∃ w2, loop_passes n w = .loop .RUNNING w2 ∧ w2.stdin = [] := by
  induction n with
  | zero => intro w h; exact ⟨w, rfl, h⟩
  | succ n ih =>
    intro w h
    have he := after_read_at_eof w h
    have hret : (shell_execute (after_read w) (argv (tokens_read w))).1 = .ret 1 := by
      rw [he.2]; rfl
    rw [loop_pass_continue w n 1 (by decide) hret, he.1, he.2]
    exact ih _ h

/-! ## The loop on a regular file -/

theorem lines_of_newline (s : List Char) : lines_of ('\n' :: s) = [] :: lines_of s := by
  rw [lines_of_eq]
  rfl

theorem lines_of_newlines (k : Nat) (s : List Char) :
    lines_of (List.replicate k '\n' ++ s) = List.replicate k [] ++ lines_of s := by
  induction k with
  | zero => rfl
  | succ k ih =>
    rw [List.replicate_succ, List.cons_append, lines_of_newline, ih, List.replicate_succ,
      List.cons_append]

theorem lines_of_line (l s : List Char) (h : '\n' ∉ l) :
    lines_of (l ++ '\n' :: s) = l :: lines_of s := by
  induction l with
  | nil => exact lines_of_newline s
  | cons c l ih =>
    have hc : c ≠ '\n' := fun e => h (by rw [e]; exact List.mem_cons_self _ _)
    have hl : '\n' ∉ l := fun e => h (List.mem_cons_of_mem _ e)
    rw [List.cons_append, lines_of_eq, List.takeWhile_cons, List.dropWhile_cons]
    simp only [bne_iff_ne, ne_eq, hc, not_false_eq_true, decide_True, if_true]
    have h2 := ih hl
    rw [lines_of_eq] at h2
    rw [(List.cons.inj h2).1, (List.cons.inj h2).2]

theorem reread_newlines (k j : Nat) (s : List Char) :
    reread (k + j) (List.replicate k '\n' ++ s)
      = List.replicate k '\n' ++ (s.take j ++ (List.replicate k '\n' ++ s)) := by
  unfold reread
  have h : List.take (k + j) (List.replicate k '\n' ++ s) = List.replicate k '\n' ++ s.take j := by
    have := @List.take_append _ (List.replicate k '\n') s j
    rwa [List.length_replicate] at this
  rw [h, List.append_assoc]

theorem launch_after_first_quiet (w : World) (env : LaunchEnv) (hw : w.nfork = 0)
    (h : w.os_launch = fun n => if n = 0 then env else sample_world.os_launch n) :
    ∀ n, w.nfork < n → quiet_launch (w.os_launch n) := by
  intro n hn
  have hn0 : ¬ n = 0 := by omega
  rw [h]
  simp only [hn0, if_false]
  exact ⟨rfl, fun _ => rfl⟩

theorem replay_input_left :
    ((replay_world.log (.system "clear".toList)).os_launch
        (replay_world.log (.system "clear".toList)).nfork).stdin_after
      (after_read (replay_world.log (.system "clear".toList))).stdin
      = List.replicate 4086 '\n' ++ ("plus 1 ".toList
          ++ (List.replicate 4086 '\n' ++ "plus 1 2\nexit\n".toList)) :=
  reread_newlines 4086 7 "plus 1 2\nexit\n".toList

theorem replay_lines_left :
    lines_of (List.replicate 4086 '\n' ++ ("plus 1 ".toList
          ++ (List.replicate 4086 '\n' ++ "plus 1 2\nexit\n".toList)))
      = (List.replicate 4086 [] ++ ("plus 1 ".toList
          :: (List.replicate 4085 [] ++ ["plus 1 2".toList]))) ++ "exit".toList :: [[]] := by
  have h1 : List.replicate 4086 '\n' ++ "plus 1 2\nexit\n".toList
      = '\n' :: (List.replicate 4085 '\n' ++ "plus 1 2\nexit\n".toList) :=
    congrArg (fun l => l ++ "plus 1 2\nexit\n".toList) (@List.replicate_succ _ '\n' 4085)
  have h2 : lines_of "plus 1 2\nexit\n".toList = ["plus 1 2".toList, "exit".toList, []] := by
    decide
  rw [lines_of_newlines, h1, lines_of_line _ _ (by decide), lines_of_newlines, h2]
  simp only [List.append_assoc, List.cons_append, List.nil_append]

theorem new_calls_after_clear (w w3 : World) (o : Outcome)
    (h : (w.log (.system "clear".toList)).trace <+: w3.trace) :
    new_calls w (o, w3) = new_calls (w.log (.system "clear".toList)) (o, w3) := by
  rw [new_calls_trans w (w.log (.system "clear".toList)) w3 o (.ret 1) o
    (List.prefix_append _ _) h]
  have h0 : new_calls w (.ret 1, w.log (.system "clear".toList)) = [] := by
    simp [new_calls, World.log]
  rw [h0, List.nil_append]

/-- C13. On the regular file of `replay_world` (the line `zz`, 4086 empty lines, the line
`plus 1 2`, the line `exit`) the first line that has `exit` as first token is line 4089, and
the dispatch of the lines up to it in order is `zz`, `plus 1 2`, `exit`.  The run does not
do that: the child of the failed launch of `zz` leaves by `exit` and sets the offset of the
file back, the shell reads again what it had read ahead, and the loop is still RUNNING after
4089 passes and after 8174 passes; it is STOPPED after 8175 passes, having dispatched `zz`,
then `plus 1`, which is no line of the file, then `plus 1 2`, then `exit`. -/
theorem loop_rereads_after_failed_launch :
    lines_of replay_world.stdin
        = ("zz".toList :: (List.replicate 4086 [] ++ ["plus 1 2".toList]))
            ++ "exit".toList :: [[]] ∧
      (("zz".toList :: (List.replicate 4086 [] ++ ["plus 1 2".toList]))
            ++ ["exit".toList]).filterMap dispatch_of
        = [(.shell_launch, argv ["zz".toList]),
           (.shell_plus, argv ["plus".toList, "1".toList, "2".toList]),
           (.shell_exit, argv ["exit".toList])] ∧
      (∃ w, shell_loop 4089 replay_world = .loop .RUNNING w) ∧
      (∃ w, shell_loop 8174 replay_world = .loop .RUNNING w) ∧
      ∃ w3, (∀ m, shell_loop (8175 + m) replay_world = .loop .STOPPED w3) ∧
        w3.stdin = [] ∧
        new_calls replay_world (.ret 0, w3)
          = [(.shell_launch, argv ["zz".toList]),
             (.shell_plus, argv ["plus".toList, "1".toList]),
             (.shell_plus, argv ["plus".toList, "1".toList, "2".toList]),
             (.shell_exit, argv ["exit".toList])] := by
  have hbefore : ∀ b ∈ List.replicate 4086 [] ++ ("plus 1 ".toList
      :: (List.replicate 4085 [] ++ ["plus 1 2".toList])),
      first_token b ≠ some "exit".toList := by
    intro b hb
    simp only [List.mem_append, List.mem_cons, List.mem_replicate, List.mem_singleton,
      List.not_mem_nil, or_false] at hb
    rcases hb with ⟨_, rfl⟩ | rfl | ⟨_, rfl⟩ | rfl <;> decide
  have hlen : (List.replicate 4086 ([] : List Char) ++ ("plus 1 ".toList
      :: (List.replicate 4085 [] ++ ["plus 1 2".toList]))).length = 8173 := by
    rw [List.length_append, List.length_replicate, List.length_cons, List.length_append,
      List.length_replicate]
    rfl
  have h2 : lines_of "plus 1 2\nexit\n".toList = ["plus 1 2".toList, "exit".toList, []] := by
    decide
  obtain ⟨hrun, w3, hstop, hin, hpre, hcalls⟩ :=
    loop_launch_then_exit (replay_world.log (.system "clear".toList)) "zz".toList []
      (List.replicate 4086 [] ++ ("plus 1 ".toList
        :: (List.replicate 4085 [] ++ ["plus 1 2".toList])))
      [[]] "exit".toList rfl (by decide) (by decide) rfl
      (by rw [replay_input_left]; exact replay_lines_left) hbefore (by decide)
      (launch_after_first_quiet _ (launch_not_found 4093) rfl rfl)
  rw [hlen] at hrun hstop
  refine ⟨?_, ?_, hrun 4089 (by decide), hrun 8174 (by decide), w3, hstop, hin, ?_⟩
  · show lines_of ("zz".toList ++ '\n' :: (List.replicate 4086 '\n' ++ "plus 1 2\nexit\n".toList))
      = _
    rw [lines_of_line _ _ (by decide), lines_of_newlines, h2]
    simp only [List.append_assoc, List.cons_append, List.nil_append]
  · rw [List.filterMap_append, List.filterMap_cons, List.filterMap_append,
      List.filterMap_replicate_of_none (by decide)]
    decide
  · rw [new_calls_after_clear _ _ _ hpre, hcalls, List.filterMap_append,
      List.filterMap_append, List.filterMap_replicate_of_none (by decide),
      List.filterMap_cons, List.filterMap_append,
      List.filterMap_replicate_of_none (by decide)]
    decide

theorem early_exit_input_left :
    ((early_exit_world.log (.system "clear".toList)).os_launch
        (early_exit_world.log (.system "clear".toList)).nfork).stdin_after
      (after_read (early_exit_world.log (.system "clear".toList))).stdin
      = List.replicate 4089 '\n' ++ ("exit".toList
          ++ (List.replicate 4089 '\n' ++ "exitx\n".toList)) :=
  reread_newlines 4089 4 "exitx\n".toList

theorem early_exit_lines_left :
    lines_of (List.replicate 4089 '\n' ++ ("exit".toList
          ++ (List.replicate 4089 '\n' ++ "exitx\n".toList)))
      = List.replicate 4089 [] ++ "exit".toList
          :: lines_of (List.replicate 4088 '\n' ++ "exitx\n".toList) := by
  have h1 : List.replicate 4089 '\n' ++ "exitx\n".toList
      = '\n' :: (List.replicate 4088 '\n' ++ "exitx\n".toList) :=
    congrArg (fun l => l ++ "exitx\n".toList) (@List.replicate_succ _ '\n' 4088)
  rw [lines_of_newlines, h1, lines_of_line _ _ (by decide)]

/-- C18. The regular file of `early_exit_world` (the line `zz`, 4089 empty lines, the line
`exitx`) has no line whose first token is `exit`: the first tokens of its lines are `zz` and
`exitx`.  The run reaches STOPPED all the same: the child of the failed launch of `zz`
leaves by `exit` and sets the offset of the file back, the shell reads the 4089 empty lines
and `exit` from what it had read ahead and then a newline from the file, and the loop,
RUNNING after 4090 passes, is STOPPED after 4091 passes, having dispatched `zz` and then
`exit`. -/
theorem loop_stops_without_exit_line :
    lines_of early_exit_world.stdin
        = "zz".toList :: (List.replicate 4089 [] ++ ["exitx".toList, []]) ∧
      (lines_of early_exit_world.stdin).filterMap first_token
        = ["zz".toList, "exitx".toList] ∧
      (∃ w, shell_loop 4090 early_exit_world = .loop .RUNNING w) ∧
      ∃ w3, (∀ m, shell_loop (4091 + m) early_exit_world = .loop .STOPPED w3) ∧
        w3.stdin = List.replicate 4088 '\n' ++ "exitx\n".toList ∧
        new_calls early_exit_world (.ret 0, w3)
          = [(.shell_launch, argv ["zz".toList]), (.shell_exit, argv ["exit".toList])] := by
  have hbefore : ∀ b ∈ List.replicate 4089 ([] : List Char),
      first_token b ≠ some "exit".toList := by
    intro b hb
    rw [(List.mem_replicate.mp hb).2]
    decide
  have h2 : lines_of "exitx\n".toList = ["exitx".toList, []] := by decide
  have hlines : lines_of early_exit_world.stdin
      = "zz".toList :: (List.replicate 4089 [] ++ ["exitx".toList, []]) := by
    show lines_of ("zz".toList ++ '\n' :: (List.replicate 4089 '\n' ++ "exitx\n".toList)) = _
    rw [lines_of_line _ _ (by decide), lines_of_newlines, h2]
  obtain ⟨hrun, w3, hstop, hin, hpre, hcalls⟩ :=
    loop_launch_then_exit (early_exit_world.log (.system "clear".toList)) "zz".toList []
      (List.replicate 4089 [])
      (lines_of (List.replicate 4088 '\n' ++ "exitx\n".toList)) "exit".toList
      rfl (by decide) (by decide) rfl
      (by rw [early_exit_input_left]; exact early_exit_lines_left) hbefore (by decide)
      (launch_after_first_quiet _ (launch_not_found 4093) rfl rfl)
  rw [List.length_replicate] at hrun hstop
  refine ⟨hlines, ?_, hrun 4090 (by decide), w3, hstop, ?_, ?_⟩
  · rw [hlines, List.filterMap_cons, List.filterMap_append,
      List.filterMap_replicate_of_none (by decide)]
    decide
  · rw [hin]
    exact List.intercalate_splitOn _ '\n'
  · rw [new_calls_after_clear _ _ _ hpre, hcalls, List.filterMap_append,
      List.filterMap_replicate_of_none (by decide)]
    decide

end YourShell
